import Mathlib

/-!
Verification of the Deployment Timing and Clock Offset Resolution Engine
of the oceanarray repository (oceanarray/find_deployment.py,
oceanarray/clock_offset.py, oceanarray/tools.py).

Modelling conventions (shallow embedding):
* IEEE floating point values are modelled over a linear ordered field.
  A value that may be NaN (or otherwise non-finite) is an Option: none
  models NaN / NaT, some x models the finite value x.  Comparisons with
  NaN are false, and NaN propagates through arithmetic, as in numpy.
* Timestamps are field elements measured in seconds (a pandas Timedelta
  of h hours is h * 3600 seconds, one day is 86400 seconds).
* Generic definitions are instantiated at Rat for concrete evaluation and
  at Real where the source computes a square root (standard deviations).
-/

namespace Oceanarray

variable {α : Type} [LinearOrderedField α]

/-- NaN-propagating addition (numpy float semantics). -/
def fadd : Option α → Option α → Option α
  | some a, some b => some (a + b)
  | _, _ => none

/-- NaN-propagating subtraction. -/
def fsub : Option α → Option α → Option α
  | some a, some b => some (a - b)
  | _, _ => none

/-- NaN-propagating multiplication. -/
def fmul : Option α → Option α → Option α
  | some a, some b => some (a * b)
  | _, _ => none

/-- NaN-propagating division; division by zero gives a non-finite result
(inf or NaN in numpy), modelled as none. -/
def fdiv : Option α → Option α → Option α
  | some a, some b => if b = 0 then none else some (a / b)
  | _, _ => none

/-- Strict less-than on float values: any comparison with NaN is false. -/
def flt : Option α → Option α → Bool
  | some a, some b => decide (a < b)
  | _, _ => false

/-- Less-or-equal on float values: any comparison with NaN is false. -/
def fle : Option α → Option α → Bool
  | some a, some b => decide (a ≤ b)
  | _, _ => false

/-- Greater-or-equal on float values. -/
def fge (a b : Option α) : Bool := fle b a

/-- Python builtin max of two floats: the second argument is taken exactly
when it compares strictly greater than the first, so a NaN first argument
is returned unchanged. -/
def pymax (a b : Option α) : Option α := if flt a b then b else a

/-- The finite (non-NaN) values of a float array, in order. -/
def finites (l : List (Option α)) : List α := l.filterMap id

/-- np.nanmean: mean of the finite values; NaN when there are none. -/
def nanmean (l : List (Option α)) : Option α :=
  let v := finites l
  if v.length = 0 then none else some (v.sum / v.length)

/-!  find_entry_exit_from_threshold (find_deployment.py lines 360-379).

    finite = np.isfinite(y); below = finite & (y < threshold)
    idx = np.where(below)[0]
    if idx.size: return (t[idx[0]], t[idx[-1]]) else (NaT, NaT)
-/

/-- Boundary search of find_deployment.py: first and last timestamp whose
sample is finite and strictly below the threshold, NaT (none) when no
sample qualifies.  The source indexes the time array with sample indices;
out-of-range indexing (a shorter time axis) would raise in numpy and is
modelled by the none result of the safe lookup. -/
def find_entry_exit_from_threshold (time : List α) (temp : List (Option α))
    (threshold : Option α) : Option α × Option α :=
  let below : ℕ → Bool := fun i =>
    (temp.getD i none).isSome && flt (temp.getD i none) threshold
  let idx : List ℕ := (List.range temp.length).filter below
  if idx.isEmpty then (none, none)
  else (idx.head?.bind (fun i => time[i]?), idx.getLast?.bind (fun i => time[i]?))

/-- The sample at index i is finite and strictly below the threshold c
(the predicate scanned by the boundary search). -/
def strictlyBelowAt (temp : List (Option α)) (c : α) (i : ℕ) : Prop :=
  ∃ v, temp[i]? = some (some v) ∧ v < c

section FindEntryExitLemmas

/-- A strictly sorted list whose head exists and is a lower bound starts at
the minimum. -/
theorem head?_eq_of_sorted_min {l : List ℕ} {a : ℕ} (hmem : a ∈ l)
    (hmin : ∀ x ∈ l, a ≤ x) (hsort : l.Pairwise (· < ·)) :
    l.head? = some a := by
  cases l with
  | nil => cases hmem
  | cons h t =>
    simp only [List.head?_cons, Option.some.injEq]
    rcases List.mem_cons.mp hmem with h1 | h2
    · omega
    · have h3 := hmin h (List.mem_cons_self h t)
      have h4 : h < a := (List.pairwise_cons.mp hsort).1 a h2
      omega

/-- A strictly sorted list whose last element exists and is an upper bound
ends at the maximum. -/
theorem getLast?_eq_of_sorted_max {l : List ℕ} {b : ℕ} (hmem : b ∈ l)
    (hmax : ∀ x ∈ l, x ≤ b) (hsort : l.Pairwise (· < ·)) :
    l.getLast? = some b := by
  induction l with
  | nil => cases hmem
  | cons h t ih =>
    cases t with
    | nil =>
      simp only [List.mem_singleton] at hmem
      simp [hmem]
    | cons h2 t2 =>
      rw [List.getLast?_cons_cons]
      apply ih
      · rcases List.mem_cons.mp hmem with h1 | h1
        · exfalso
          have hh2 : h < h2 := (List.pairwise_cons.mp hsort).1 h2 (List.mem_cons_self _ _)
          have := hmax h2 (List.mem_cons_of_mem _ (List.mem_cons_self _ _))
          omega
        · exact h1
      · intro x hx
        exact hmax x (List.mem_cons_of_mem _ hx)
      · exact (List.pairwise_cons.mp hsort).2

/-- Head of a strictly sorted list is at most its last element. -/
theorem head_le_getLast_of_sorted {l : List ℕ} {a b : ℕ}
    (hsort : l.Pairwise (· < ·)) (ha : l.head? = some a)
    (hb : l.getLast? = some b) : a ≤ b := by
  cases l with
  | nil => cases ha
  | cons h t =>
    have ha' : h = a := by simpa using ha
    have hbmem : b ∈ h :: t := by
      rcases List.mem_getLast?_eq_getLast (l := h :: t) (x := b) hb with ⟨hne, hb2⟩
      rw [hb2]
      exact List.getLast_mem hne
    rcases List.mem_cons.mp hbmem with h1 | h1
    · omega
    · have := (List.pairwise_cons.mp hsort).1 b h1
      omega

/-- Membership in the index list scanned by the boundary search is exactly
the finite-and-strictly-below predicate. -/
theorem mem_entryExitIdx (temp : List (Option α)) (c : α) (i : ℕ) :
    (i ∈ (List.range temp.length).filter (fun i =>
      (temp.getD i none).isSome && flt (temp.getD i none) (some c)))
    ↔ strictlyBelowAt temp c i := by
  rw [List.mem_filter, List.mem_range]
  constructor
  · rintro ⟨hi, hb⟩
    rw [Bool.and_eq_true] at hb
    rw [List.getD_eq_getElem?_getD] at hb
    rcases h : temp[i]? with _ | v
    · rw [h] at hb; simp [flt] at hb
    · rcases v with _ | w
      · rw [h] at hb; simp at hb
      · rw [h] at hb
        simp only [Option.getD_some, Option.isSome_some, true_and, flt,
          decide_eq_true_eq] at hb
        exact ⟨w, h, hb⟩
  · rintro ⟨v, hv, hvc⟩
    have hi : i < temp.length := (List.getElem?_eq_some.mp hv).1
    refine ⟨hi, ?_⟩
    rw [Bool.and_eq_true, List.getD_eq_getElem?_getD, hv]
    simp only [Option.getD_some, Option.isSome_some, true_and, flt,
      decide_eq_true_eq]
    exact hvc

end FindEntryExitLemmas

/-- Claim C1: the boundary search returns the timestamps of the first and
last sample index whose value is finite and strictly below the threshold.
On a series above the threshold everywhere it returns (NaT, NaT); when the
below-threshold samples are exactly the index run from a to b it returns
(time a, time b). -/
theorem claim_C1 (time : List α) (temp : List (Option α)) (c : α)
    (hlen : time.length = temp.length) :
    ((∀ i, ¬ strictlyBelowAt temp c i) →
      find_entry_exit_from_threshold time temp (some c) = (none, none)) ∧
    (∀ a b, strictlyBelowAt temp c a → (∀ j, j < a → ¬ strictlyBelowAt temp c j) →
      strictlyBelowAt temp c b → (∀ j, b < j → ¬ strictlyBelowAt temp c j) →
      find_entry_exit_from_threshold time temp (some c) = (time[a]?, time[b]?) ∧
        (time[a]?).isSome ∧ (time[b]?).isSome) ∧
    (∀ a b, a ≤ b → b < temp.length →
      (∀ i, strictlyBelowAt temp c i ↔ (a ≤ i ∧ i ≤ b)) →
      find_entry_exit_from_threshold time temp (some c) = (time[a]?, time[b]?) ∧
        (time[a]?).isSome ∧ (time[b]?).isSome) := by
  have hsortidx : ((List.range temp.length).filter (fun i =>
      (temp.getD i none).isSome && flt (temp.getD i none) (some c))).Pairwise (· < ·) :=
    List.Pairwise.filter _ (List.pairwise_lt_range temp.length)
  have hfl : ∀ a b, strictlyBelowAt temp c a →
      (∀ j, j < a → ¬ strictlyBelowAt temp c j) →
      strictlyBelowAt temp c b → (∀ j, b < j → ¬ strictlyBelowAt temp c j) →
      find_entry_exit_from_threshold time temp (some c) = (time[a]?, time[b]?) ∧
        (time[a]?).isSome ∧ (time[b]?).isSome := by
    intro a b hPa hmina hPb hmaxb
    have hamem := (mem_entryExitIdx temp c a).mpr hPa
    have hbmem := (mem_entryExitIdx temp c b).mpr hPb
    have hhead : ((List.range temp.length).filter (fun i =>
        (temp.getD i none).isSome && flt (temp.getD i none) (some c))).head? = some a := by
      apply head?_eq_of_sorted_min hamem _ hsortidx
      intro x hx
      by_contra hax
      exact hmina x (by omega) ((mem_entryExitIdx temp c x).mp hx)
    have hlast : ((List.range temp.length).filter (fun i =>
        (temp.getD i none).isSome && flt (temp.getD i none) (some c))).getLast? = some b := by
      apply getLast?_eq_of_sorted_max hbmem _ hsortidx
      intro x hx
      by_contra hbx
      exact hmaxb x (by omega) ((mem_entryExitIdx temp c x).mp hx)
    have ha : a < time.length := by
      rcases hPa with ⟨v, hv, _⟩
      have := (List.getElem?_eq_some.mp hv).1
      omega
    have hb : b < time.length := by
      rcases hPb with ⟨v, hv, _⟩
      have := (List.getElem?_eq_some.mp hv).1
      omega
    have hne : ¬ ((List.range temp.length).filter (fun i =>
        (temp.getD i none).isSome && flt (temp.getD i none) (some c))).isEmpty = true := by
      rw [List.isEmpty_iff]
      intro h
      rw [h] at hamem
      cases hamem
    refine ⟨?_, ?_, ?_⟩
    · unfold find_entry_exit_from_threshold
      simp only [hne, if_false, hhead, hlast, Option.bind_some]
      rfl
    · simp [List.getElem?_eq_getElem ha]
    · simp [List.getElem?_eq_getElem hb]
  refine ⟨?_, hfl, ?_⟩
  · intro hnone
    have hempty : (List.range temp.length).filter (fun i =>
        (temp.getD i none).isSome && flt (temp.getD i none) (some c)) = [] := by
      apply List.filter_eq_nil_iff.mpr
      intro a ha
      intro hb
      exact hnone a ((mem_entryExitIdx temp c a).mp (List.mem_filter.mpr ⟨ha, hb⟩))
    simp only [find_entry_exit_from_threshold]
    rw [hempty]
    rfl
  · intro a b hab hblen hiff
    have hPa : strictlyBelowAt temp c a := (hiff a).mpr ⟨le_refl a, hab⟩
    have hPb : strictlyBelowAt temp c b := (hiff b).mpr ⟨hab, le_refl b⟩
    exact hfl a b hPa (fun j hj hP => by have := ((hiff j).mp hP).1; omega)
      hPb (fun j hj hP => by have := ((hiff j).mp hP).2; omega)

/-- Witness for claim C1 at a concrete input: threshold 3, below-threshold
run at indices 1..2 of a four-sample series. -/
theorem claim_C1_witness :
    ([(10 : ℚ), 20, 30, 40].length = [some (5 : ℚ), some 1, some 2, some 9].length) ∧
    (1 : ℕ) ≤ 2 ∧ (2 : ℕ) < [some (5 : ℚ), some 1, some 2, some 9].length ∧
    find_entry_exit_from_threshold [(10 : ℚ), 20, 30, 40]
      [some 5, some 1, some 2, some 9] (some 3) = (some 20, some 30) := by
  have hiff : ∀ i, strictlyBelowAt [some (5 : ℚ), some 1, some 2, some 9] 3 i ↔
      (1 ≤ i ∧ i ≤ 2) := by
    intro i
    constructor
    · rintro ⟨v, hv, hvc⟩
      have hi : i < 4 := (List.getElem?_eq_some.mp hv).1
      interval_cases i
      · simp only [List.getElem?_cons_zero, Option.some.injEq] at hv
        rw [← hv] at hvc
        norm_num at hvc
      · omega
      · omega
      · simp only [List.getElem?_cons_succ, List.getElem?_cons_zero,
          Option.some.injEq] at hv
        rw [← hv] at hvc
        norm_num at hvc
    · rintro ⟨h1, h2⟩
      interval_cases i
      · exact ⟨1, rfl, by norm_num⟩
      · exact ⟨2, rfl, by norm_num⟩
  have h := (claim_C1 [(10 : ℚ), 20, 30, 40] [some 5, some 1, some 2, some 9] 3
    rfl).2.2 1 2 (by norm_num) (by norm_num) hiff
  exact ⟨rfl, by norm_num, by norm_num, h.1.trans (by decide)⟩

/-- Claim C8: over a monotonically non-decreasing time axis, whenever the
boundary search writes two finite boundary timestamps, the start is at most
the end (the DeploymentAnnotation invariant; every level of find_deployment
writes exactly the pair returned by this search, for whatever threshold the
pipeline computed for that level). -/
theorem claim_C8 (time : List α) (temp : List (Option α)) (threshold : Option α)
    (hlen : time.length = temp.length) (hsort : time.Sorted (· ≤ ·)) :
    ∀ s e, find_entry_exit_from_threshold time temp threshold = (some s, some e) →
      s ≤ e := by
  intro s e h
  simp only [find_entry_exit_from_threshold] at h
  by_cases hemp : ((List.range temp.length).filter (fun i =>
      (temp.getD i none).isSome && flt (temp.getD i none) threshold)).isEmpty
  · rw [if_pos hemp] at h
    cases h
  · rw [if_neg hemp] at h
    have h1 := congrArg Prod.fst h
    have h2 := congrArg Prod.snd h
    simp only at h1 h2
    rcases Option.bind_eq_some.mp h1 with ⟨i0, hi0, hs⟩
    rcases Option.bind_eq_some.mp h2 with ⟨i1, hi1, he⟩
    have horder : i0 ≤ i1 :=
      head_le_getLast_of_sorted
        (List.Pairwise.filter _ (List.pairwise_lt_range temp.length)) hi0 hi1
    have hlt0 : i0 < time.length := (List.getElem?_eq_some.mp hs).1
    have hlt1 : i1 < time.length := (List.getElem?_eq_some.mp he).1
    have hs' : time.get ⟨i0, hlt0⟩ = s := by
      have := (List.getElem?_eq_some.mp hs).2
      simpa using this
    have he' : time.get ⟨i1, hlt1⟩ = e := by
      have := (List.getElem?_eq_some.mp he).2
      simpa using this
    rcases Nat.lt_or_ge i0 i1 with hlt | hge
    · have := (List.pairwise_iff_get.mp hsort) ⟨i0, hlt0⟩ ⟨i1, hlt1⟩ hlt
      rw [hs', he'] at this
      exact this
    · have : i0 = i1 := le_antisymm horder hge
      subst this
      rw [← hs', ← he']

/-- Witness for claim C8: a sorted concrete time axis with both boundaries
finite yields an ordered pair of boundary timestamps. -/
theorem claim_C8_witness :
    ([(10 : ℚ), 20, 30, 40].length = [some (5 : ℚ), some 1, some 2, some 9].length) ∧
    ([(10 : ℚ), 20, 30, 40].Sorted (· ≤ ·)) ∧ (20 : ℚ) ≤ 30 :=
  ⟨rfl, by decide,
    claim_C8 [(10 : ℚ), 20, 30, 40] [some 5, some 1, some 2, some 9] (some 3)
      rfl (by decide) 20 30 (by decide)⟩

/-!  likely_at_bottom_window (find_deployment.py lines 93-144).

Timestamps are in seconds; a Timedelta of h hours is h * 3600 and
pd.to_timedelta(f, unit=D) * (span / Timedelta(days=1)) is
(f * 86400) * (span / 86400).  The source reads t[0] and t[-1], which
would raise on an empty axis; callers guarantee a non-empty axis and the
embedding uses the 0-defaulted head and last accessors.
-/

/-- Window believed to represent steady in-water conditions, under one of
three strategies, clipped to the available range with a middle-third
fallback when the clipped window is empty or inverted. -/
def likely_at_bottom_window (time : List α) (strategy : String)
    (bottom_margin_hours : α) (bottom_inner_fraction : α)
    (deployment_time recovery_time : Option α)
    (deployment_margin_hours : α) : α × α :=
  let tmin := time.headD 0
  let tmax := time.getLastD 0
  let se : α × α :=
    if strategy = "fixed_hours" then
      (tmin + bottom_margin_hours * 3600, tmax - bottom_margin_hours * 3600)
    else if strategy = "deployment_bounds" ∧ deployment_time.isSome ∧
        recovery_time.isSome then
      (deployment_time.getD 0 + deployment_margin_hours * 3600,
       recovery_time.getD 0 - deployment_margin_hours * 3600)
    else
      (tmin + (bottom_inner_fraction * 86400) * ((tmax - tmin) / 86400),
       tmax - (bottom_inner_fraction * 86400) * ((tmax - tmin) / 86400))
  let start := max se.1 tmin
  let stop := min se.2 tmax
  if stop ≤ start then
    (tmin + (tmax - tmin) * (33 / 100), tmin + (tmax - tmin) * (66 / 100))
  else (start, stop)

/-- The clip-and-fallback postcondition of the window selector, for any
candidate window. -/
theorem bottom_window_clip (tmin tmax s0 e0 : α) (hspan : tmin < tmax) :
    ∀ r : α × α,
      r = (if min e0 tmax ≤ max s0 tmin
           then (tmin + (tmax - tmin) * (33 / 100), tmin + (tmax - tmin) * (66 / 100))
           else (max s0 tmin, min e0 tmax)) →
      tmin ≤ r.1 ∧ r.1 < r.2 ∧ r.2 ≤ tmax := by
  intro r hr
  split_ifs at hr with hcl
  · subst hr
    refine ⟨by nlinarith, by nlinarith, by nlinarith⟩
  · subst hr
    exact ⟨le_max_right _ _, not_le.mp hcl, min_le_right _ _⟩

/-- A strictly sorted list of length at least two starts strictly before it
ends. -/
theorem headD_lt_getLastD_of_sorted {l : List α} (h2 : 2 ≤ l.length)
    (hsort : l.Sorted (· < ·)) : l.headD 0 < l.getLastD 0 := by
  cases l with
  | nil => simp at h2
  | cons a t =>
    cases t with
    | nil => simp at h2
    | cons b t2 =>
      have hne : b :: t2 ≠ [] := by simp
      have hlast : (a :: b :: t2).getLastD 0 = (b :: t2).getLast hne := by
        rw [List.getLastD_eq_getLast?, List.getLast?_eq_getLast_of_ne_nil (by simp)]
        simp [List.getLast_cons hne]
      rw [hlast]
      simp only [List.headD_cons]
      exact (List.pairwise_cons.mp hsort).1 _ (List.getLast_mem hne)

/-- Claim C5: for a strictly increasing time axis of length at least two and
any strategy and parameters, the bottom window has start strictly before end
and both endpoints inside the record span. -/
theorem claim_C5 (time : List α) (strategy : String)
    (bottom_margin_hours bottom_inner_fraction : α)
    (deployment_time recovery_time : Option α) (deployment_margin_hours : α)
    (h2 : 2 ≤ time.length) (hsort : time.Sorted (· < ·)) :
    time.headD 0 ≤ (likely_at_bottom_window time strategy bottom_margin_hours
        bottom_inner_fraction deployment_time recovery_time
        deployment_margin_hours).1 ∧
    (likely_at_bottom_window time strategy bottom_margin_hours
        bottom_inner_fraction deployment_time recovery_time
        deployment_margin_hours).1 <
      (likely_at_bottom_window time strategy bottom_margin_hours
        bottom_inner_fraction deployment_time recovery_time
        deployment_margin_hours).2 ∧
    (likely_at_bottom_window time strategy bottom_margin_hours
        bottom_inner_fraction deployment_time recovery_time
        deployment_margin_hours).2 ≤ time.getLastD 0 := by
  have hspan : time.headD 0 < time.getLastD 0 :=
    headD_lt_getLastD_of_sorted h2 hsort
  simp only [likely_at_bottom_window]
  exact bottom_window_clip _ _ _ _ hspan _ rfl

/-- Witness for claim C5: a three-sample axis with the fixed-hours strategy
whose margins invert the window, exercising the middle-third fallback. -/
theorem claim_C5_witness :
    2 ≤ ([(0 : ℚ), 3600, 7200] : List ℚ).length ∧
    ([(0 : ℚ), 3600, 7200] : List ℚ).Sorted (· < ·) ∧
    ((0 : ℚ) ≤ (likely_at_bottom_window [(0 : ℚ), 3600, 7200] "fixed_hours"
        24 (1 / 4) none none 2).1 ∧
     (likely_at_bottom_window [(0 : ℚ), 3600, 7200] "fixed_hours"
        24 (1 / 4) none none 2).1 <
       (likely_at_bottom_window [(0 : ℚ), 3600, 7200] "fixed_hours"
        24 (1 / 4) none none 2).2 ∧
     (likely_at_bottom_window [(0 : ℚ), 3600, 7200] "fixed_hours"
        24 (1 / 4) none none 2).2 ≤ 7200) := by
  refine ⟨by decide, by decide, ?_⟩
  have h := claim_C5 [(0 : ℚ), 3600, 7200] "fixed_hours" 24 (1 / 4) none none 2
    (by decide) (by decide)
  simpa using h

/-!  _best_step_change (find_deployment.py lines 47-89).

Single change point by SSE minimization over prefix sums.  The prefix
arrays are nancumsum of the values (NaN as 0), of their squares, and of
the finite-count; Python index k-1 for k = 0 wraps to the last entry.
A division by a zero count yields a non-finite float, and a non-finite
SSE never beats the running best (NaN comparisons are false), both
modelled by the none case.
-/

/-- One fold step of the SSE search loop; best holds
(k, sse, mu_left, mu_right) of the best split seen so far. -/
def stepChangeFold (y : List (Option α)) (min_seg : ℕ)
    (best : Option (ℕ × α × α × α)) (k : ℕ) : Option (ℕ × α × α × α) :=
  let n := y.length
  let pc : ℕ → ℕ := fun j => (finites (y.take j)).length
  let ps : ℕ → α := fun j => (finites (y.take j)).sum
  let pq : ℕ → α := fun j => ((finites (y.take j)).map (fun v => v * v)).sum
  let n1 : ℕ := if k = 0 then pc n else pc k
  let n2 : ℕ := pc n - n1
  if n1 < min_seg ∨ n2 < min_seg then best
  else
    let s1 := if k = 0 then ps n else ps k
    let s2 := ps n - s1
    let q1 := if k = 0 then pq n else pq k
    let q2 := pq n - q1
    let mu1 : Option α := if n1 = 0 then none else some (s1 / (n1 : α))
    let mu2 : Option α := if n2 = 0 then none else some (s2 / (n2 : α))
    let sse : Option α :=
      fadd (fsub (some q1) (fmul (some (n1 : α)) (fmul mu1 mu1)))
           (fsub (some q2) (fmul (some (n2 : α)) (fmul mu2 mu2)))
    match sse with
    | none => best
    | some s =>
      match best with
      | none => some (k, s, mu1.getD 0, mu2.getD 0)
      | some (k0, s0, m1, m2) =>
        if s < s0 then some (k, s, mu1.getD 0, mu2.getD 0)
        else some (k0, s0, m1, m2)

/-- One change point (piecewise constant) via SSE minimization, returning
(split index, left mean, right mean); degenerate result when the series is
too short or no candidate split qualifies. -/
def _best_step_change (y : List (Option α)) (min_seg : ℕ) :
    ℕ × Option α × Option α :=
  let n := y.length
  if n < 2 * min_seg + 1 then
    (max min_seg (n / 2), nanmean y, nanmean y)
  else
    let ks := List.range' min_seg (n - 2 * min_seg + 1)
    match ks.foldl (stepChangeFold y min_seg) none with
    | none => (max min_seg (n / 2), nanmean y, nanmean y)
    | some (k, _, m1, m2) => (k, some m1, some m2)

/-- Counterexample to claim C6 as stated: on a one-sample series with
min_seg = 1, the degenerate result's split index is max(min_seg, n div 2)
= 1, not n div 2 = 0 as the claim asserts. -/
theorem claim_C6_counterexample :
    (_best_step_change [some (5 : ℚ)] 1).1 ≠ [some (5 : ℚ)].length / 2 := by
  decide

/-- Claim C6 (amended): on a series shorter than 2 * min_seg + 1 the
change-point detector returns the degenerate result: split index
max(min_seg, n div 2) and both segment means equal to the overall
NaN-skipping mean of the series. -/
theorem claim_C6 (y : List (Option α)) (min_seg : ℕ)
    (hshort : y.length < 2 * min_seg + 1) :
    _best_step_change y min_seg =
      (max min_seg (y.length / 2), nanmean y, nanmean y) := by
  unfold _best_step_change
  rw [if_pos hshort]

/-- Witness for claim C6 at the concrete short series. -/
theorem claim_C6_witness :
    ([some (5 : ℚ)].length < 2 * 1 + 1) ∧
    _best_step_change [some (5 : ℚ)] 1 =
      (max 1 ([some (5 : ℚ)].length / 2), nanmean [some (5 : ℚ)],
        nanmean [some (5 : ℚ)]) :=
  ⟨by decide, claim_C6 [some (5 : ℚ)] 1 (by decide)⟩

/-!  compute_threshold_sigma_band (find_deployment.py lines 147-211),
with the numpy and pandas statistical helpers it relies on:
a centered rolling median with min_periods 1, nanpercentile with linear
interpolation, and nanmedian.
-/

/-- Insertion into a sorted list. -/
def insertSorted (x : α) : List α → List α
  | [] => [x]
  | y :: ys => if x ≤ y then x :: y :: ys else y :: insertSorted x ys

/-- Ascending sort of the values (numpy sorts before percentile lookup). -/
def sortVals (l : List α) : List α := l.foldr insertSorted []

/-- Python max of two finite floats is the mathematical max. -/
theorem pymax_some (a b : α) : pymax (some a) (some b) = some (max a b) := by
  unfold pymax flt
  rcases le_or_lt b a with h | h
  · rw [if_neg (by simpa using not_lt.mpr h), max_eq_left h]
  · rw [if_pos (by simpa using h), max_eq_right h.le]

variable [FloorRing α]

/-- np.nanpercentile with the default linear interpolation (q in 0..100;
numpy raises outside that range, which no caller does). -/
def nanpercentile (l : List (Option α)) (q : α) : Option α :=
  let v := sortVals (finites l)
  if v.length = 0 then none
  else
    let n := v.length
    let pos := q * ((n : α) - 1) / 100
    let i : ℕ := (Int.floor pos).toNat
    if i + 1 < n then
      some (v.getD i 0 + (pos - (i : α)) * (v.getD (i + 1) 0 - v.getD i 0))
    else some (v.getD (n - 1) 0)

/-- np.nanmedian: median of the finite values (mean of the two middle order
statistics for an even count), NaN when there are none. -/
def nanmedian (l : List (Option α)) : Option α :=
  let v := sortVals (finites l)
  let n := v.length
  if n = 0 then none
  else if n % 2 = 1 then some (v.getD (n / 2) 0)
  else some ((v.getD (n / 2 - 1) 0 + v.getD (n / 2) 0) / 2)

/-- pandas centered rolling median with min_periods 1: at index i the
window covers indices i - (win-1)/2 .. i + win/2, clipped to the array. -/
def rollingMedian (win : ℕ) (l : List (Option α)) : List (Option α) :=
  (List.range l.length).map (fun i =>
    let lo := i - (win - 1) / 2
    let hi := i + win / 2
    nanmedian ((l.drop lo).take (hi + 1 - lo)))

/-- Boolean-mask selection (numpy fancy indexing with a same-length mask). -/
def maskSelect {γ : Type} (l : List γ) (mask : List Bool) : List γ :=
  ((l.zip mask).filter (fun p => p.2)).map (fun p => p.1)

/-- The warm-side resolution step of compute_threshold_sigma_band: the
explicit side is passed through; auto infers high or low by comparing the
median of the early and late warm-percentile estimates (of the smoothed
series) against sea_mean, defaulting to high when neither window has
samples.  none models the IndexError the source raises on an empty time
axis in the auto branch. -/
def resolveWarmSide (time : List α) (temp : List (Option α))
    (sea_mean : Option α) (warm_side : String) (hours : α)
    (smooth_window : ℕ) (warm_percentile : α) : Option String :=
  if warm_side = "auto" then
    if time.isEmpty then none
    else
      let ys := rollingMedian smooth_window temp
      let tmin := time.headD 0
      let tmax := time.getLastD 0
      let early : List Bool := time.map (fun x => decide (x ≤ tmin + hours * 3600))
      let late : List Bool := time.map (fun x => decide (x ≥ tmax - hours * 3600))
      let warm_samples : List (Option α) :=
        (if early.any id then [nanpercentile (maskSelect ys early) warm_percentile]
         else []) ++
        (if late.any id then [nanpercentile (maskSelect ys late) warm_percentile]
         else [])
      if warm_samples.isEmpty then some "high"
      else some (if fge (nanmedian warm_samples) sea_mean then "high" else "low")
  else some warm_side

/-- Sigma-band threshold: half-width max(band_sigma * sea_std,
min_band_halfwidth); threshold above (below) sea_mean when the resolved
warm side is high (low), with deep_is_below true exactly for high. -/
def compute_threshold_sigma_band (time : List α) (temp : List (Option α))
    (sea_mean sea_std : Option α) (band_sigma min_band_halfwidth : α)
    (warm_side : String) (hours : α) (smooth_window : ℕ)
    (warm_percentile : α) : Option (Option α × Bool) :=
  let halfw := pymax (fmul (some band_sigma) sea_std) (some min_band_halfwidth)
  match resolveWarmSide time temp sea_mean warm_side hours smooth_window
      warm_percentile with
  | none => none
  | some side =>
    if side = "low" then some (fsub sea_mean halfw, false)
    else some (fadd sea_mean halfw, true)

/-- Unfolding of the threshold computation once the warm side is resolved. -/
theorem compute_threshold_eq_of_resolve (time : List α) (temp : List (Option α))
    (sea_mean sea_std : Option α) (band_sigma mhw : α) (warm_side : String)
    (hours : α) (smooth_window : ℕ) (wp : α) (side : String)
    (hres : resolveWarmSide time temp sea_mean warm_side hours smooth_window wp =
      some side) :
    compute_threshold_sigma_band time temp sea_mean sea_std band_sigma mhw
        warm_side hours smooth_window wp =
      if side = "low"
      then some (fsub sea_mean (pymax (fmul (some band_sigma) sea_std) (some mhw)),
        false)
      else some (fadd sea_mean (pymax (fmul (some band_sigma) sea_std) (some mhw)),
        true) := by
  unfold compute_threshold_sigma_band
  rw [hres]

/-- Counterexample to claim C3 as stated: with the physically meaningless
inputs sea_std = -1 and min_band_halfwidth = -2 the half-width is
negative, so the absolute distance of the threshold from sea_mean is not
max(band_sigma * sea_std, min_band_halfwidth). -/
theorem claim_C3_counterexample :
    compute_threshold_sigma_band ([] : List ℚ) [] (some 0) (some (-1)) 1 (-2)
      "high" 24 9 90 = some (some (-1), true) ∧
    ¬ (|(-1 : ℚ) - 0| = max ((1 : ℚ) * (-1)) (-2)) := by
  constructor
  · have hres : resolveWarmSide ([] : List ℚ) [] (some 0) "high" 24 9 90 =
        some "high" := by
      unfold resolveWarmSide
      rw [if_neg (by decide)]
    rw [compute_threshold_eq_of_resolve ([] : List ℚ) [] (some 0) (some (-1))
      1 (-2) "high" 24 9 90 "high" hres, if_neg (by decide)]
    rw [show fmul (some (1 : ℚ)) (some (-1)) = some ((1 : ℚ) * (-1)) from rfl,
      pymax_some]
    norm_num [fadd]
  · norm_num

/-- Claim C3 (amended): whenever the half-width
max(band_sigma * sea_std, min_band_halfwidth) is nonnegative (true for all
physically meaningful inputs, in particular whenever sea_std >= 0 and
min_band_halfwidth >= 0), the returned threshold satisfies
|threshold - sea_mean| = max(band_sigma * sea_std, min_band_halfwidth)
exactly, lying above sea_mean when the resolved warm side is high (with
deep_is_below true) and below it when low; and under warm_side = auto with
a non-empty time axis, when neither the early nor the late window contains
any sample, the resolved side is high. -/
theorem claim_C3 (time : List α) (temp : List (Option α)) (m s : α)
    (band_sigma mhw : α) (warm_side : String) (hours : α)
    (smooth_window : ℕ) (wp : α)
    (hnn : 0 ≤ max (band_sigma * s) mhw) :
    (∀ thr dib,
      compute_threshold_sigma_band time temp (some m) (some s) band_sigma mhw
        warm_side hours smooth_window wp = some (some thr, dib) →
      |thr - m| = max (band_sigma * s) mhw) ∧
    (∀ side,
      resolveWarmSide time temp (some m) warm_side hours smooth_window wp =
        some side →
      (side = "low" →
        compute_threshold_sigma_band time temp (some m) (some s) band_sigma mhw
          warm_side hours smooth_window wp =
          some (some (m - max (band_sigma * s) mhw), false)) ∧
      (side ≠ "low" →
        compute_threshold_sigma_band time temp (some m) (some s) band_sigma mhw
          warm_side hours smooth_window wp =
          some (some (m + max (band_sigma * s) mhw), true))) ∧
    (warm_side = "auto" → time ≠ [] →
      (∀ x ∈ time, ¬ (x ≤ time.headD 0 + hours * 3600)) →
      (∀ x ∈ time, ¬ (time.getLastD 0 - hours * 3600 ≤ x)) →
      resolveWarmSide time temp (some m) warm_side hours smooth_window wp =
        some "high") := by
  have hhw : pymax (fmul (some band_sigma) (some s)) (some (mhw : α)) =
      some (max (band_sigma * s) mhw) := by
    rw [show fmul (some band_sigma) (some s) = some (band_sigma * s) from rfl]
    exact pymax_some _ _
  have hside : ∀ side, resolveWarmSide time temp (some m) warm_side hours
      smooth_window wp = some side →
      (side = "low" →
        compute_threshold_sigma_band time temp (some m) (some s) band_sigma mhw
          warm_side hours smooth_window wp =
          some (some (m - max (band_sigma * s) mhw), false)) ∧
      (side ≠ "low" →
        compute_threshold_sigma_band time temp (some m) (some s) band_sigma mhw
          warm_side hours smooth_window wp =
          some (some (m + max (band_sigma * s) mhw), true)) := by
    intro side hres
    have heq := compute_threshold_eq_of_resolve time temp (some m) (some s)
      band_sigma mhw warm_side hours smooth_window wp side hres
    rw [hhw] at heq
    constructor
    · intro hlow
      rw [heq, if_pos hlow]
      rfl
    · intro hnotlow
      rw [heq, if_neg hnotlow]
      rfl
  refine ⟨?_, hside, ?_⟩
  · intro thr dib hres
    rcases hr : resolveWarmSide time temp (some m) warm_side hours
        smooth_window wp with _ | side
    · unfold compute_threshold_sigma_band at hres
      rw [hr] at hres
      simp at hres
    · rcases hside side hr with ⟨hl, hnl⟩
      by_cases hlow : side = "low"
      · have h2 := (hl hlow).symm.trans hres
        simp only [Option.some.injEq, Prod.mk.injEq] at h2
        rw [← h2.1]
        rw [abs_of_nonpos (by linarith)]
        ring
      · have h2 := (hnl hlow).symm.trans hres
        simp only [Option.some.injEq, Prod.mk.injEq] at h2
        rw [← h2.1]
        rw [abs_of_nonneg (by linarith)]
        ring
  · intro hauto hne hearly hlate
    unfold resolveWarmSide
    rw [if_pos hauto, if_neg (by simpa [List.isEmpty_iff] using hne)]
    have he : (time.map (fun x =>
        decide (x ≤ time.headD 0 + hours * 3600))).any id = false := by
      rw [List.any_eq_false]
      intro b hb
      rcases List.mem_map.mp hb with ⟨x, hx, hxb⟩
      subst hxb
      simpa using hearly x hx
    have hl : (time.map (fun x =>
        decide (time.getLastD 0 - hours * 3600 ≤ x))).any id = false := by
      rw [List.any_eq_false]
      intro b hb
      rcases List.mem_map.mp hb with ⟨x, hx, hxb⟩
      subst hxb
      simpa using hlate x hx
    simp only [he, hl, if_false, List.append_nil, List.isEmpty_nil, if_pos]
    rfl

/-- Witness for claim C3: a two-sample axis with negative hours empties
both sampling windows, so auto resolves to high and the threshold is
sea_mean plus the half-width. -/
theorem claim_C3_witness :
    (0 ≤ max ((1 : ℚ) * 1) (1 / 10)) ∧
    resolveWarmSide [(0 : ℚ), 7200] [some 1, some 2] (some 0) "auto" (-1) 9 90 =
      some "high" ∧
    compute_threshold_sigma_band [(0 : ℚ), 7200] [some 1, some 2] (some 0)
      (some 1) 1 (1 / 10) "auto" (-1) 9 90 =
      some (some (0 + max ((1 : ℚ) * 1) (1 / 10)), true) := by
  have h := claim_C3 [(0 : ℚ), 7200] [some 1, some 2] 0 1 1 (1 / 10) "auto"
    (-1) 9 90 (by norm_num)
  have hres := h.2.2 rfl (by simp)
    (by intro x hx; fin_cases hx <;> norm_num)
    (by intro x hx; fin_cases hx <;> norm_num)
  exact ⟨by norm_num, hres, (h.2.1 "high" hres).2 (by decide)⟩

/-!  calculate_timing_offsets (clock_offset.py lines 249-321), with the
numpy helpers it relies on: arange, histogram with explicit edges (all
bins half-open except the last, which is closed), argmax (first index of
the maximum), and the NaT-skipping pandas min and max.
-/

/-- np.arange for a positive step: start, start+step, ... while below stop;
the length is the ceiling of (stop - start) / step. -/
def arangeL (start stop step : α) : List α :=
  (List.range (Int.ceil ((stop - start) / step)).toNat).map
    (fun (i : ℕ) => start + (i : α) * step)

/-- Membership test of a value in histogram bin k: left edge inclusive,
right edge exclusive except for the last bin, which is closed. -/
def binPred (edges : List α) (k : ℕ) (v : α) : Bool :=
  decide (edges.getD k 0 ≤ v) &&
    (if k + 2 = edges.length then decide (v ≤ edges.getD (k + 1) 0)
     else decide (v < edges.getD (k + 1) 0))

/-- Count of values falling in histogram bin k. -/
def countBin (edges : List α) (vals : List α) (k : ℕ) : ℕ :=
  vals.countP (binPred edges k)

/-- The largest value reached by folding max over a list of naturals. -/
def maxValN (l : List ℕ) : ℕ := l.foldr max 0

/-- np.argmax on a list of naturals: index of the first occurrence of the
maximum (0 on the empty input, where numpy raises). -/
def argmaxN (l : List ℕ) : ℕ := l.indexOf (maxValN l)

/-- pandas min with skipna: minimum of the finite values, none if there are
none. -/
def nanminList (l : List (Option α)) : Option α :=
  match finites l with
  | [] => none
  | x :: xs => some (xs.foldl min x)

/-- pandas max with skipna. -/
def nanmaxList (l : List (Option α)) : Option α :=
  match finites l with
  | [] => none
  | x :: xs => some (xs.foldl max x)

/-- Minimum of a list of values (meaningful for non-empty lists; numpy
raises on an empty array). -/
def listMin (l : List α) : α := l.foldl min (l.headD 0)

/-- Maximum of a list of values. -/
def listMax (l : List α) : α := l.foldl max (l.headD 0)

/-- The offset, drift and consensus output of calculate_timing_offsets. -/
structure TimingOffsets (β : Type) where
  start_offsets : List (Option β)
  end_offsets : List (Option β)
  avg_offsets : List (Option β)
  diff_offsets : List (Option β)
  drift_rates : List (Option β)
  consensus_indices : List ℕ
  ref_start : Option β
  ref_end : Option β

/-- Timing-offset consensus analysis of clock_offset.py: naive offsets from
the earliest start and latest end, histogram-mode consensus clustering of
the finite start offsets (RuntimeError when there are none), reference
times recomputed from the consensus group (requiring a finite end time,
relaxed when that empties the group), and offsets, averages, differences
and per-day drift rates for all levels.  Offsets are in seconds. -/
def calculate_timing_offsets (start_times end_times : List (Option α))
    (bin_width_sec : α) : Except String (TimingOffsets α) :=
  let ref_start0 := nanminList start_times
  let ref_end0 := nanmaxList end_times
  let start_off0 := start_times.map (fun st => fsub st ref_start0)
  let end_off0 := end_times.map (fun et => fsub et ref_end0)
  let vals := finites start_off0
  if vals.isEmpty then Except.error "No finite start offsets to form consensus."
  else
    let vmin := listMin vals
    let vmax := listMax vals
    let bins := arangeL (vmin - bin_width_sec) (vmax + 2 * bin_width_sec)
      bin_width_sec
    if bins.length < 2 then Except.error "ValueError: too few bins"
    else
      let hist := (List.range (bins.length - 1)).map (countBin bins vals)
      let k := argmaxN hist
      let lo := bins.getD k 0
      let hi := bins.getD (k + 1) 0
      let in_consensus : List Bool :=
        start_off0.map (fun v => fge v (some lo) && flt v (some hi))
      let idx0 := (List.range start_times.length).filter (fun i =>
        in_consensus.getD i false && (start_times.getD i none).isSome &&
          (end_times.getD i none).isSome)
      let idx_consensus :=
        if idx0.isEmpty then
          (List.range start_times.length).filter (fun i =>
            in_consensus.getD i false && (start_times.getD i none).isSome)
        else idx0
      let ref_start := nanminList (idx_consensus.map
        (fun i => start_times.getD i none))
      let ref_end := nanmaxList (idx_consensus.map
        (fun i => end_times.getD i none))
      let start_off := start_times.map (fun st => fsub st ref_start)
      let end_off := end_times.map (fun et => fsub et ref_end)
      let avg_off := (start_off.zip end_off).map
        (fun p => fdiv (fadd p.1 p.2) (some 2))
      let diff_off := (start_off.zip end_off).map (fun p => fsub p.1 p.2)
      let dur := (end_times.zip start_times).map (fun p => fsub p.1 p.2)
      let drift := (List.range start_times.length).map (fun i =>
        match start_off.getD i none, end_off.getD i none, dur.getD i none with
        | some so, some eo, some d =>
          if 0 < d then some ((eo - so) / d * 86400) else none
        | _, _, _ => none)
      Except.ok
        { start_offsets := start_off
          end_offsets := end_off
          avg_offsets := avg_off
          diff_offsets := diff_off
          drift_rates := drift
          consensus_indices := idx_consensus
          ref_start := ref_start
          ref_end := ref_end }

section ConsensusLemmas

/-- getD of a map over a range evaluates the function. -/
theorem getD_map_range {β : Type} (f : ℕ → β) (n k : ℕ) (d : β) (hk : k < n) :
    ((List.range n).map f).getD k d = f k := by
  rw [List.getD_eq_getElem?_getD, List.getElem?_map, List.getElem?_range hk]
  rfl

/-- An in-bounds getD is a member of the list. -/
theorem getD_mem {β : Type} {l : List β} {i : ℕ} (d : β) (h : i < l.length) :
    l.getD i d ∈ l := by
  rw [List.getD_eq_getElem?_getD, List.getElem?_eq_getElem h]
  exact List.getElem_mem h

theorem foldl_min_le_init (l : List α) (a : α) : l.foldl min a ≤ a := by
  induction l generalizing a with
  | nil => simp
  | cons x xs ih =>
    calc (x :: xs).foldl min a = xs.foldl min (min a x) := rfl
    _ ≤ min a x := ih _
    _ ≤ a := min_le_left _ _

theorem foldl_min_le_mem {l : List α} {x : α} (hx : x ∈ l) (a : α) :
    l.foldl min a ≤ x := by
  induction l generalizing a with
  | nil => cases hx
  | cons y ys ih =>
    rcases List.mem_cons.mp hx with rfl | h
    · calc (x :: ys).foldl min a = ys.foldl min (min a x) := rfl
      _ ≤ min a x := foldl_min_le_init _ _
      _ ≤ x := min_le_right _ _
    · exact ih h _

theorem foldl_min_mem (l : List α) (a : α) :
    l.foldl min a = a ∨ l.foldl min a ∈ l := by
  induction l generalizing a with
  | nil => left; rfl
  | cons x xs ih =>
    have hstep : (x :: xs).foldl min a = xs.foldl min (min a x) := rfl
    rcases ih (min a x) with h | h
    · rcases le_total a x with hax | hax
      · left
        rw [hstep, h, min_eq_left hax]
      · right
        rw [hstep, h, min_eq_right hax]
        exact List.mem_cons_self _ _
    · right
      rw [hstep]
      exact List.mem_cons_of_mem _ h

theorem le_foldl_max_init (l : List α) (a : α) : a ≤ l.foldl max a := by
  induction l generalizing a with
  | nil => simp
  | cons x xs ih =>
    calc a ≤ max a x := le_max_left _ _
    _ ≤ xs.foldl max (max a x) := ih _
    _ = (x :: xs).foldl max a := rfl

theorem le_foldl_max_mem {l : List α} {x : α} (hx : x ∈ l) (a : α) :
    x ≤ l.foldl max a := by
  induction l generalizing a with
  | nil => cases hx
  | cons y ys ih =>
    rcases List.mem_cons.mp hx with rfl | h
    · calc x ≤ max a x := le_max_right _ _
      _ ≤ ys.foldl max (max a x) := le_foldl_max_init _ _
      _ = (x :: ys).foldl max a := rfl
    · exact ih h _

/-- The value of listMin on a non-empty list is a member. -/
theorem listMin_mem {l : List α} (h : l ≠ []) : listMin l ∈ l := by
  rcases foldl_min_mem l (l.headD 0) with h1 | h1
  · rw [listMin, h1]
    cases l with
    | nil => exact absurd rfl h
    | cons x xs => exact List.mem_cons_self _ _
  · exact h1

/-- listMin is a lower bound. -/
theorem listMin_le {l : List α} {x : α} (hx : x ∈ l) : listMin l ≤ x :=
  foldl_min_le_mem hx _

/-- listMax is an upper bound. -/
theorem le_listMax {l : List α} {x : α} (hx : x ∈ l) : x ≤ listMax l :=
  le_foldl_max_mem hx _

theorem le_maxValN {l : List ℕ} {x : ℕ} (hx : x ∈ l) : x ≤ maxValN l := by
  induction l with
  | nil => cases hx
  | cons y ys ih =>
    rcases List.mem_cons.mp hx with rfl | h
    · exact le_max_left _ _
    · exact le_trans (ih h) (le_max_right _ _)

theorem maxValN_mem {l : List ℕ} (h : l ≠ []) : maxValN l ∈ l := by
  induction l with
  | nil => exact absurd rfl h
  | cons x xs ih =>
    cases xs with
    | nil =>
      simp [maxValN]
    | cons y ys =>
      have hstep : maxValN (x :: y :: ys) = max x (maxValN (y :: ys)) := rfl
      rcases le_total (maxValN (y :: ys)) x with hle | hle
      · rw [hstep, max_eq_left hle]
        exact List.mem_cons_self _ _
      · rw [hstep, max_eq_right hle]
        exact List.mem_cons_of_mem _ (ih (by simp))

theorem argmaxN_lt_length {l : List ℕ} (h : l ≠ []) : argmaxN l < l.length :=
  List.indexOf_lt_length.mpr (maxValN_mem h)

theorem getD_argmaxN {l : List ℕ} (h : l ≠ []) :
    l.getD (argmaxN l) 0 = maxValN l := by
  have hm := maxValN_mem h
  have hlt := List.indexOf_lt_length.mpr hm
  unfold argmaxN
  rw [List.getD_eq_getElem?_getD, List.getElem?_eq_getElem hlt]
  simpa using List.indexOf_get hlt

theorem arangeL_length (a b s : α) :
    (arangeL a b s).length = (Int.ceil ((b - a) / s)).toNat := by
  rw [arangeL, List.length_map, List.length_range]

theorem arangeL_getD (a b s : α) {k : ℕ} (hk : k < (arangeL a b s).length) :
    (arangeL a b s).getD k 0 = a + (k : α) * s := by
  have h2 : k < (Int.ceil ((b - a) / s)).toNat := by
    rw [arangeL_length] at hk
    exact hk
  rw [arangeL]
  exact getD_map_range _ _ _ _ h2

end ConsensusLemmas

/-- Claim C2: the consensus resolver raises RuntimeError exactly when no
level has a finite start time; with at least one finite start time it
completes and the consensus index set is non-empty (membership falls back
from requiring finite start and end times to finite start times only when
the stricter set is empty).  The positive bin width matches the resolver's
configuration (default 60 seconds). -/
theorem claim_C2 (start_times end_times : List (Option α)) (bw : α)
    (hbw : 0 < bw) :
    ((∀ s ∈ start_times, s = none) →
      calculate_timing_offsets start_times end_times bw =
        Except.error "No finite start offsets to form consensus.") ∧
    ((∃ s ∈ start_times, s.isSome) →
      ∃ r, calculate_timing_offsets start_times end_times bw = Except.ok r ∧
        r.consensus_indices ≠ []) := by
  constructor
  · intro hall
    have hnil : finites (start_times.map
        (fun st => fsub st (nanminList start_times))) = [] := by
      rw [finites, List.filterMap_eq_nil_iff]
      intro a ha
      rcases List.mem_map.mp ha with ⟨st, hst, hsta⟩
      rw [← hsta, hall st hst]
      rfl
    simp only [calculate_timing_offsets]
    rw [hnil]
    rfl
  · rintro ⟨s0, hs0m, hs0s⟩
    obtain ⟨sv, rfl⟩ := Option.isSome_iff_exists.mp hs0s
    have hr0 : ∃ r0, nanminList start_times = some r0 := by
      unfold nanminList
      rcases hf : finites start_times with _ | ⟨f0, frest⟩
      · exfalso
        have hm : sv ∈ finites start_times :=
          List.mem_filterMap.mpr ⟨some sv, hs0m, rfl⟩
        rw [hf] at hm
        cases hm
      · exact ⟨_, rfl⟩
    obtain ⟨r0, hr0⟩ := hr0
    simp only [calculate_timing_offsets]
    set off0 := start_times.map (fun st => fsub st (nanminList start_times))
      with hoff0
    set vals := finites off0 with hvalsdef
    have hmemoff : fsub (some sv) (nanminList start_times) ∈ off0 :=
      List.mem_map_of_mem _ hs0m
    have hvmem0 : (sv - r0) ∈ vals := by
      rw [hvalsdef]
      refine List.mem_filterMap.mpr ⟨_, hmemoff, ?_⟩
      rw [hr0]
      rfl
    have hvalsne : vals ≠ [] := List.ne_nil_of_mem hvmem0
    have hvalsne' : ¬ (vals.isEmpty = true) := by
      rw [List.isEmpty_iff]
      exact hvalsne
    rw [if_neg hvalsne']
    set vmin := listMin vals with hvmindef
    set vmax := listMax vals with hvmaxdef
    have hminmem : vmin ∈ vals := listMin_mem hvalsne
    have hminmax : vmin ≤ vmax := le_listMax hminmem
    set bins := arangeL (vmin - bw) (vmax + 2 * bw) bw with hbins
    have hxval : (3 : α) ≤ (vmax + 2 * bw - (vmin - bw)) / bw := by
      rw [le_div_iff hbw]
      linarith
    have hz : (3 : ℤ) ≤ Int.ceil ((vmax + 2 * bw - (vmin - bw)) / bw) := by
      have hceil := Int.le_ceil ((vmax + 2 * bw - (vmin - bw)) / bw)
      have h3 : ((3 : ℤ) : α) ≤ ((Int.ceil ((vmax + 2 * bw - (vmin - bw)) / bw) : ℤ) : α) :=
        le_trans (by exact_mod_cast hxval) hceil
      exact_mod_cast h3
    have hlen3 : 3 ≤ bins.length := by
      rw [hbins, arangeL_length]
      omega
    have hlen2 : ¬ (bins.length < 2) := by omega
    rw [if_neg hlen2]
    have hedge : ∀ j, j < bins.length →
        bins.getD j 0 = (vmin - bw) + (j : α) * bw := by
      intro j hj
      rw [hbins]
      exact arangeL_getD _ _ _ (hbins ▸ hj)
    have hlenge : (vmax + 2 * bw - (vmin - bw)) / bw ≤ ((bins.length : ℕ) : α) := by
      rw [hbins, arangeL_length]
      have h0 : (0 : ℤ) ≤ Int.ceil ((vmax + 2 * bw - (vmin - bw)) / bw) := by omega
      have h2 : (((Int.ceil ((vmax + 2 * bw - (vmin - bw)) / bw)).toNat : ℕ) : α) =
          ((Int.ceil ((vmax + 2 * bw - (vmin - bw)) / bw) : ℤ) : α) := by
        exact_mod_cast congrArg (fun z : ℤ => (z : α)) (Int.toNat_of_nonneg h0)
      rw [h2]
      exact Int.le_ceil _
    set hist := (List.range (bins.length - 1)).map (countBin bins vals)
      with hhist
    have hhistlen : hist.length = bins.length - 1 := by
      rw [hhist, List.length_map, List.length_range]
    have hhistne : hist ≠ [] := by
      intro h
      rw [h] at hhistlen
      simp at hhistlen
      omega
    set k := argmaxN hist with hkdef
    have hklt : k < hist.length := argmaxN_lt_length hhistne
    have hk1 : k + 1 < bins.length := by omega
    set lo := bins.getD k 0 with hlodef
    set hi := bins.getD (k + 1) 0 with hhidef
    have hbin1 : 0 < countBin bins vals 1 := by
      rw [countBin]
      refine List.countP_pos_iff.mpr ⟨vmin, hminmem, ?_⟩
      unfold binPred
      rw [hedge 1 (by omega), hedge 2 (by omega), Bool.and_eq_true]
      constructor
      · simp only [decide_eq_true_eq]
        push_cast
        linarith
      · split_ifs with h3
        · simp only [decide_eq_true_eq]
          push_cast
          linarith
        · simp only [decide_eq_true_eq]
          push_cast
          linarith
    have hkcount : 0 < countBin bins vals k := by
      have h1 : hist.getD 1 0 = countBin bins vals 1 := by
        rw [hhist]
        exact getD_map_range _ _ _ _ (by omega)
      have h2 : hist.getD k 0 = maxValN hist := getD_argmaxN hhistne
      have h3 : hist.getD 1 0 ≤ maxValN hist :=
        le_maxValN (getD_mem _ (by omega))
      have h4 : hist.getD k 0 = countBin bins vals k := by
        rw [hhist]
        exact getD_map_range _ _ _ _ (by omega)
      omega
    rw [countBin] at hkcount
    obtain ⟨v, hvval, hvpred⟩ := List.countP_pos_iff.mp hkcount
    have hvmax2 : v ≤ vmax := le_listMax hvval
    unfold binPred at hvpred
    rw [Bool.and_eq_true] at hvpred
    obtain ⟨hp1, hp2⟩ := hvpred
    have hlo2 : lo ≤ v := by
      rw [hlodef]
      simpa using hp1
    have hhige : k + 2 = bins.length → vmax + bw ≤ hi := by
      intro hlast
      have hhi2 : hi = (vmin - bw) + ((k + 1 : ℕ) : α) * bw := by
        rw [hhidef]
        exact hedge (k + 1) hk1
      have hk1cast : ((k + 1 : ℕ) : α) = ((bins.length : ℕ) : α) - 1 := by
        rw [← hlast]
        push_cast
        ring
      have hx2 : vmax + 2 * bw - (vmin - bw) ≤ ((bins.length : ℕ) : α) * bw := by
        have hmul := mul_le_mul_of_nonneg_right hlenge (le_of_lt hbw)
        rwa [div_mul_cancel₀ _ (ne_of_gt hbw)] at hmul
      rw [hhi2, hk1cast]
      linarith
    have hvhi : v < hi := by
      by_cases hlast : k + 2 = bins.length
      · have := hhige hlast
        linarith
      · rw [if_neg hlast] at hp2
        rw [hhidef]
        simpa using hp2
    have hsomev : some v ∈ off0 := by
      rcases List.mem_filterMap.mp hvval with ⟨o, ho, hoid⟩
      have h5 : o = some v := hoid
      rw [← h5]
      exact ho
    obtain ⟨i, hoffi⟩ := List.mem_iff_getElem?.mp hsomev
    have hilen : i < off0.length := (List.getElem?_eq_some.mp hoffi).1
    have hilen' : i < start_times.length := by
      rw [hoff0, List.length_map] at hilen
      exact hilen
    have hsti : ∃ st, start_times[i]? = some st ∧
        fsub st (nanminList start_times) = some v := by
      rw [hoff0, List.getElem?_map] at hoffi
      rcases hst : start_times[i]? with _ | st
      · rw [hst] at hoffi
        cases hoffi
      · rw [hst] at hoffi
        refine ⟨st, rfl, ?_⟩
        simpa using hoffi
    obtain ⟨st, hsti1, hsti2⟩ := hsti
    have hstsome : st.isSome := by
      rcases st with _ | stx
      · rw [show fsub (none : Option α) (nanminList start_times) = none from rfl]
          at hsti2
        cases hsti2
      · rfl
    set incons := off0.map (fun v => fge v (some lo) && flt v (some hi))
      with hincons
    have hinci : incons.getD i false = true := by
      rw [hincons, List.getD_eq_getElem?_getD, List.getElem?_map, hoffi]
      show (fge (some v) (some lo) && flt (some v) (some hi)) = true
      rw [Bool.and_eq_true]
      constructor
      · show fle (some lo) (some v) = true
        simp only [fle, decide_eq_true_eq]
        exact hlo2
      · simp only [flt, decide_eq_true_eq]
        exact hvhi
    have hgetst : start_times.getD i none = st := by
      rw [List.getD_eq_getElem?_getD, hsti1]
      rfl
    set F := (List.range start_times.length).filter (fun i =>
      incons.getD i false && (start_times.getD i none).isSome) with hF
    have hiF : i ∈ F := by
      rw [hF]
      refine List.mem_filter.mpr ⟨List.mem_range.mpr hilen', ?_⟩
      rw [Bool.and_eq_true]
      constructor
      · exact hinci
      · rw [hgetst]
        exact hstsome
    have hFne : F ≠ [] := List.ne_nil_of_mem hiF
    set idx0 := (List.range start_times.length).filter (fun i =>
      incons.getD i false && (start_times.getD i none).isSome &&
        (end_times.getD i none).isSome) with hidx0
    refine ⟨_, rfl, ?_⟩
    show (if idx0.isEmpty then F else idx0) ≠ []
    split_ifs with hemp
    · exact hFne
    · intro h
      rw [h] at hemp
      simp at hemp

/-- Witness for claim C2: with one finite and one missing start time the
resolver completes with a non-empty consensus set, and with no finite
start time it raises. -/
theorem claim_C2_witness :
    (0 : ℚ) < 60 ∧
    (∃ s ∈ [some (0 : ℚ), none], s.isSome) ∧
    (∃ r, calculate_timing_offsets [some (0 : ℚ), none]
        [(none : Option ℚ), none] 60 = Except.ok r ∧
      r.consensus_indices ≠ []) ∧
    calculate_timing_offsets [(none : Option ℚ)] [(none : Option ℚ)] 60 =
      Except.error "No finite start offsets to form consensus." := by
  refine ⟨by norm_num, ⟨some 0, by simp, rfl⟩, ?_, ?_⟩
  · exact (claim_C2 [some (0 : ℚ), none] [(none : Option ℚ), none] 60
      (by norm_num)).2 ⟨some 0, by simp, rfl⟩
  · exact (claim_C2 [(none : Option ℚ)] [(none : Option ℚ)] 60
      (by norm_num)).1 (by simp)

/-!  suggest_reference_instrument (clock_offset.py lines 420-473).

np.argmin returns the first index of the minimum; the suggested level is
the original index of that entry of the finite-compressed absolute-offset
array.  The fallback dictionary carries only the index and reason; its
absent offset fields are modelled as none.
-/

/-- np.argmin: index of the first occurrence of the minimum. -/
def argminL (l : List α) : ℕ := l.indexOf (listMin l)

/-- Reference-instrument suggestion record. -/
structure RefSuggestion (β : Type) where
  suggested_index : ℕ
  reason : String
  offset_seconds : Option β
  abs_offset_seconds : Option β

/-- Suggest the reference instrument: the level with the smallest finite
absolute average offset, or level 0 with a fallback reason when no offset
is finite. -/
def suggest_reference_instrument (avg_offsets : List (Option α)) :
    RefSuggestion α :=
  let abs_offsets := avg_offsets.map (Option.map (fun x => |x|))
  if (abs_offsets.filterMap id).isEmpty then
    { suggested_index := 0
      reason := "fallback - no finite offsets"
      offset_seconds := none
      abs_offset_seconds := none }
  else
    let finite_indices := (List.range abs_offsets.length).filter
      (fun i => (abs_offsets.getD i none).isSome)
    let compressed := abs_offsets.filterMap id
    let min_abs_idx := finite_indices.getD (argminL compressed) 0
    { suggested_index := min_abs_idx
      reason := "smallest absolute average timing offset"
      offset_seconds := avg_offsets.getD min_abs_idx none
      abs_offset_seconds := abs_offsets.getD min_abs_idx none }

/-- The finite-index positions of an Option list, read back through getD,
are exactly its finite values. -/
theorem finite_indices_spec (l : List (Option α)) :
    ((List.range l.length).filter (fun i => (l.getD i none).isSome)).map
      (fun i => l.getD i none) = (l.filterMap id).map some := by
  induction l with
  | nil => rfl
  | cons x xs ih =>
    have hrange : List.range (x :: xs).length =
        0 :: (List.range xs.length).map (· + 1) := by
      rw [List.length_cons, List.range_succ_eq_map]
    have hcomp : ∀ r : List ℕ,
        (r.map (· + 1)).filter (fun i => ((x :: xs).getD i none).isSome) =
        (r.filter (fun i => (xs.getD i none).isSome)).map (· + 1) := by
      intro r
      rw [List.filter_map]
      rfl
    have hmapcomp : ∀ r : List ℕ,
        ((r.map (· + 1)).map (fun i => (x :: xs).getD i none)) =
        r.map (fun i => xs.getD i none) := by
      intro r
      rw [List.map_map]
      rfl
    rcases x with _ | v
    · rw [hrange]
      rw [show (0 :: (List.range xs.length).map (· + 1)).filter
          (fun i => ((none :: xs).getD i none).isSome) =
          ((List.range xs.length).map (· + 1)).filter
          (fun i => ((none :: xs).getD i none).isSome) from by
        rw [List.filter_cons]
        simp]
      rw [hcomp, hmapcomp]
      rw [show (none :: xs).filterMap id = xs.filterMap id from by
        rw [List.filterMap_cons]
        rfl]
      exact ih
    · rw [hrange]
      rw [show (0 :: (List.range xs.length).map (· + 1)).filter
          (fun i => ((some v :: xs).getD i none).isSome) =
          0 :: ((List.range xs.length).map (· + 1)).filter
          (fun i => ((some v :: xs).getD i none).isSome) from by
        rw [List.filter_cons]
        simp]
      rw [List.map_cons, hcomp, hmapcomp]
      rw [show (some v :: xs).filterMap id = v :: xs.filterMap id from by
        rw [List.filterMap_cons]
        rfl]
      rw [List.map_cons]
      rw [ih]
      rfl

/-- argmin of a non-empty list is in bounds. -/
theorem argminL_lt_length {l : List α} (h : l ≠ []) : argminL l < l.length :=
  List.indexOf_lt_length.mpr (listMin_mem h)

/-- The entry at the argmin is the minimum. -/
theorem getD_argminL {l : List α} (h : l ≠ []) :
    l.getD (argminL l) 0 = listMin l := by
  have hm := listMin_mem h
  have hlt := List.indexOf_lt_length.mpr hm
  unfold argminL
  rw [List.getD_eq_getElem?_getD, List.getElem?_eq_getElem hlt]
  simpa using List.indexOf_get hlt

/-- Reading a finite-index position j gives the j-th finite value. -/
theorem finite_indices_getD (l : List (Option α)) {j : ℕ}
    (hj : j < (l.filterMap id).length) (d : α) :
    ∃ i0, ((List.range l.length).filter
        (fun i => (l.getD i none).isSome)).getD j 0 = i0 ∧
      l.getD i0 none = some ((l.filterMap id).getD j d) := by
  have hspec := finite_indices_spec l
  have h1 := congrArg (fun t => t[j]?) hspec
  simp only [List.getElem?_map] at h1
  have hCj : (l.filterMap id)[j]? = some ((l.filterMap id).getD j d) := by
    rw [List.getD_eq_getElem?_getD, List.getElem?_eq_getElem hj]
    rfl
  rw [hCj] at h1
  rcases hFj : ((List.range l.length).filter
      (fun i => (l.getD i none).isSome))[j]? with _ | i0
  · rw [hFj] at h1
    cases h1
  · rw [hFj] at h1
    refine ⟨i0, ?_, by simpa using h1⟩
    rw [List.getD_eq_getElem?_getD, hFj]
    rfl

/-- Claim C9: the suggester returns an index whose average offset is finite
and of minimal absolute value among all finite offsets, with the standard
reason string; on the example offsets 5, -1, 20, NaN it returns index 1;
and when no offset is finite it returns index 0 with the explicit fallback
reason. -/
theorem claim_C9 (offs : List (Option α)) :
    ((∀ o ∈ offs, o = none) →
      suggest_reference_instrument offs =
        { suggested_index := 0
          reason := "fallback - no finite offsets"
          offset_seconds := none
          abs_offset_seconds := none }) ∧
    ((∃ o ∈ offs, o.isSome) →
      ∃ m, offs[(suggest_reference_instrument offs).suggested_index]? =
          some (some m) ∧
        (∀ (j : ℕ) (x : α), offs[j]? = some (some x) → |m| ≤ |x|) ∧
        (suggest_reference_instrument offs).reason =
          "smallest absolute average timing offset") ∧
    (suggest_reference_instrument
      [some (5 : ℚ), some (-1), some 20, none]).suggested_index = 1 := by
  refine ⟨?_, ?_, by decide⟩
  · intro hall
    simp only [suggest_reference_instrument]
    have habs : (offs.map (Option.map (fun x => |x|))).filterMap id = [] := by
      rw [List.filterMap_eq_nil_iff]
      intro a ha
      rcases List.mem_map.mp ha with ⟨o, ho, hoa⟩
      rw [hall o ho] at hoa
      rw [← hoa]
      rfl
    rw [habs]
    rfl
  · rintro ⟨o0, ho0, ho0s⟩
    obtain ⟨w, rfl⟩ := Option.isSome_iff_exists.mp ho0s
    simp only [suggest_reference_instrument]
    have hwmem : |w| ∈ (offs.map (Option.map (fun x => |x|))).filterMap id :=
      List.mem_filterMap.mpr ⟨some |w|, List.mem_map_of_mem _ ho0, rfl⟩
    have hCne : (offs.map (Option.map (fun x => |x|))).filterMap id ≠ [] :=
      List.ne_nil_of_mem hwmem
    have hne' : ¬ (((offs.map (Option.map (fun x => |x|))).filterMap
        id).isEmpty = true) := by
      rw [List.isEmpty_iff]
      exact hCne
    rw [if_neg hne']
    obtain ⟨i0, hidx, hgi0⟩ := finite_indices_getD
      (offs.map (Option.map (fun x => |x|))) (argminL_lt_length hCne) 0
    rw [getD_argminL hCne] at hgi0
    have hi0lt : i0 < (offs.map (Option.map (fun x => |x|))).length := by
      by_contra hge
      rw [List.getD_eq_getElem?_getD, List.getElem?_eq_none (by omega)] at hgi0
      cases hgi0
    have hAoff : (offs.map (Option.map (fun x => |x|)))[i0]? =
        (offs[i0]?).map (Option.map (fun x => |x|)) := List.getElem?_map _ _ _
    have hi0off : i0 < offs.length := by
      rw [List.length_map] at hi0lt
      exact hi0lt
    have hm : ∃ m, offs[i0]? = some (some m) ∧
        |m| = listMin ((offs.map (Option.map (fun x => |x|))).filterMap id) := by
      rcases hoi : offs[i0]? with _ | o
      · rw [List.getElem?_eq_none_iff] at hoi
        omega
      · rcases o with _ | m
        · rw [List.getD_eq_getElem?_getD, hAoff, hoi] at hgi0
          cases hgi0
        · refine ⟨m, rfl, ?_⟩
          rw [List.getD_eq_getElem?_getD, hAoff, hoi] at hgi0
          simpa using hgi0
    obtain ⟨m, hmi, hmmin⟩ := hm
    refine ⟨m, ?_, ?_, ?_⟩
    · show offs[((List.range (offs.map (Option.map (fun x => |x|))).length).filter
        (fun i => ((offs.map (Option.map (fun x => |x|))).getD i
          none).isSome)).getD
            (argminL ((offs.map (Option.map (fun x => |x|))).filterMap id)) 0]? =
        some (some m)
      rw [hidx]
      exact hmi
    · intro jx x hjx
      have hmem : some x ∈ offs := List.mem_iff_getElem?.mpr ⟨jx, hjx⟩
      have hax : some |x| ∈ offs.map (Option.map (fun x => |x|)) :=
        List.mem_map_of_mem _ hmem
      have hxC : |x| ∈ (offs.map (Option.map (fun x => |x|))).filterMap id :=
        List.mem_filterMap.mpr ⟨some |x|, hax, rfl⟩
      rw [hmmin]
      exact listMin_le hxC
    · rfl

/-- Witness for claim C9 at the example offsets. -/
theorem claim_C9_witness :
    (∃ o ∈ [some (5 : ℚ), some (-1), some 20, none], o.isSome) ∧
    (suggest_reference_instrument
      [some (5 : ℚ), some (-1), some 20, none]).suggested_index = 1 ∧
    (∃ m, [some (5 : ℚ), some (-1), some 20,
        none][(suggest_reference_instrument
          [some (5 : ℚ), some (-1), some 20, none]).suggested_index]? =
        some (some m) ∧
      (∀ (j : ℕ) (x : ℚ), [some (5 : ℚ), some (-1), some 20, none][j]? = some (some x) →
        |m| ≤ |x|) ∧
      (suggest_reference_instrument
        [some (5 : ℚ), some (-1), some 20, none]).reason =
        "smallest absolute average timing offset") := by
  have h := claim_C9 [some (5 : ℚ), some (-1), some 20, none]
  exact ⟨⟨some 5, by simp, rfl⟩, h.2.2,
    h.2.1 ⟨some 5, by simp, rfl⟩⟩

/-!  lag_correlation (tools.py lines 17-41).

Pearson correlation at integer lags.  Standard deviations are square
roots, so this part of the embedding lives over the reals; the value-level
computations (slicing, joint-finiteness masking) remain generic and
computable.
-/

/-- Arithmetic mean of a list (np.nanmean of an all-finite array; the
empty case gives 0/0, i.e. numpy NaN, which callers below never read). -/
def mean (l : List α) : α := l.sum / (l.length : α)

/-- The lagged slice pair: for lag < 0 correlate x[:lag] with y[-lag:],
for lag > 0 correlate x[lag:] with y[:-lag], and the full arrays at 0. -/
def lagSlices {γ : Type} (x y : List γ) (lag : ℤ) : List γ × List γ :=
  if lag < 0 then (x.take (x.length - (-lag).toNat), y.drop (-lag).toNat)
  else if 0 < lag then (x.drop lag.toNat, y.take (y.length - lag.toNat))
  else (x, y)

/-- Jointly-finite sample pairs of two aligned series (the mask
m = ~isnan(xs) & ~isnan(ys) and the compressions xs[m], ys[m]). -/
def jointPairs {γ : Type} (xs ys : List (Option γ)) : List (γ × γ) :=
  (xs.zip ys).filterMap (fun p =>
    match p with
    | (some a, some b) => some (a, b)
    | _ => none)

/-- np.nanstd (population std, the default ddof = 0) of an all-finite
array. -/
noncomputable def nanstdPop (l : List ℝ) : ℝ :=
  Real.sqrt (((l.map (fun v => (v - mean l) ^ 2)).sum) / (l.length : ℝ))

/-- The correlation entry at one lag: NaN (none) when fewer than
min_overlap jointly-finite samples remain or the product of the sample
standard deviations is not positive. -/
noncomputable def lagEntry (x y : List (Option ℝ)) (lag : ℤ)
    (min_overlap : ℕ) : Option ℝ :=
  let mv := jointPairs (lagSlices x y lag).1 (lagSlices x y lag).2
  if min_overlap ≤ mv.length then
    let xm := mv.map Prod.fst
    let ym := mv.map Prod.snd
    let xc := xm.map (fun v => v - mean xm)
    let yc := ym.map (fun v => v - mean ym)
    if 0 < nanstdPop xc * nanstdPop yc then
      some (mean ((xc.zip yc).map (fun p => p.1 * p.2)) /
        (nanstdPop xc * nanstdPop yc))
    else none
  else none

/-- Pearson correlation at integer lags in [-max_lag, max_lag]; none
models the ValueError raised when the arrays have different lengths. -/
noncomputable def lag_correlation (x y : List (Option ℝ))
    (max_lag min_overlap : ℕ) : Option (List (Option ℝ)) :=
  if x.length ≠ y.length then none
  else some ((List.range (2 * max_lag + 1)).map
    (fun (k : ℕ) => lagEntry x y ((k : ℤ) - (max_lag : ℤ)) min_overlap))

section LagCorrelationLemmas

theorem sum_map_sub (l : List α) (c : α) :
    (l.map (fun v => v - c)).sum = l.sum - (l.length : α) * c := by
  induction l with
  | nil => simp
  | cons x xs ih =>
    simp only [List.map_cons, List.sum_cons, ih, List.length_cons]
    push_cast
    ring

/-- The centered copy of a list has mean zero. -/
theorem mean_centered (l : List α) : mean (l.map (fun v => v - mean l)) = 0 := by
  unfold mean
  rw [sum_map_sub, List.length_map]
  rcases Nat.eq_zero_or_pos l.length with h0 | hpos
  · rw [h0]
    simp
  · have hne : (l.length : α) ≠ 0 := by
      exact_mod_cast Nat.pos_iff_ne_zero.mp hpos
    rw [mul_div_cancel₀ _ hne]
    simp

theorem sum_sq_nonneg {γ : Type} (l : List γ) (f : γ → ℝ) :
    0 ≤ (l.map (fun v => f v ^ 2)).sum := by
  induction l with
  | nil => simp
  | cons x xs ih =>
    simp only [List.map_cons, List.sum_cons]
    nlinarith [sq_nonneg (f x)]

theorem sum_pos_of_mem_pos {l : List ℝ} (hnn : ∀ e ∈ l, 0 ≤ e) {e0 : ℝ}
    (hmem : e0 ∈ l) (hpos : 0 < e0) : 0 < l.sum := by
  induction l with
  | nil => cases hmem
  | cons x xs ih =>
    rw [List.sum_cons]
    rcases List.mem_cons.mp hmem with rfl | hmem2
    · have : 0 ≤ xs.sum := List.sum_nonneg (fun a ha => hnn a (List.mem_cons_of_mem _ ha))
      linarith
    · have hx : 0 ≤ x := hnn x (List.mem_cons_self _ _)
      have := ih (fun a ha => hnn a (List.mem_cons_of_mem _ ha)) hmem2
      linarith

/-- Cauchy-Schwarz for a list of pairs. -/
theorem list_cauchy_schwarz (p : List (ℝ × ℝ)) :
    ((p.map (fun q => q.1 * q.2)).sum) ^ 2 ≤
      (p.map (fun q => q.1 ^ 2)).sum * (p.map (fun q => q.2 ^ 2)).sum := by
  induction p with
  | nil => simp
  | cons q rest ih =>
    obtain ⟨x, y⟩ := q
    simp only [List.map_cons, List.sum_cons]
    set S := (rest.map (fun q => q.1 * q.2)).sum with hS
    set P := (rest.map (fun q => q.1 ^ 2)).sum with hP
    set Q := (rest.map (fun q => q.2 ^ 2)).sum with hQ
    have hPnn : 0 ≤ P := sum_sq_nonneg rest (fun q => q.1)
    have hQnn : 0 ≤ Q := sum_sq_nonneg rest (fun q => q.2)
    have hSabs : |S| ≤ Real.sqrt P * Real.sqrt Q := by
      have h1 : |S| = Real.sqrt (S ^ 2) := (Real.sqrt_sq_eq_abs S).symm
      rw [h1, ← Real.sqrt_mul hPnn]
      exact Real.sqrt_le_sqrt ih
    have hS1 : S ≤ Real.sqrt P * Real.sqrt Q := le_trans (le_abs_self S) hSabs
    have hS2 : -(Real.sqrt P * Real.sqrt Q) ≤ S := by
      have := neg_abs_le S
      linarith [hSabs]
    have hsqP : Real.sqrt P ^ 2 = P := Real.sq_sqrt hPnn
    have hsqQ : Real.sqrt Q ^ 2 = Q := Real.sq_sqrt hQnn
    have key : 2 * (x * y) * S ≤ x ^ 2 * Q + y ^ 2 * P := by
      rcases le_or_lt 0 (x * y) with hxy | hxy
      · have h2 : 2 * (x * y) * S ≤ 2 * (x * y) * (Real.sqrt P * Real.sqrt Q) :=
          mul_le_mul_of_nonneg_left hS1 (by linarith)
        nlinarith [sq_nonneg (x * Real.sqrt Q - y * Real.sqrt P)]
      · have h2 : 2 * (x * y) * S ≤ 2 * (x * y) * (-(Real.sqrt P * Real.sqrt Q)) := by
          have := mul_le_mul_of_nonpos_left hS2 (by linarith : 2 * (x * y) ≤ 0)
          linarith [this]
        nlinarith [sq_nonneg (x * Real.sqrt Q + y * Real.sqrt P)]
    nlinarith [ih]

/-- Standard deviation of the centered copy of a list. -/
theorem nanstdPop_centered (l : List ℝ) :
    nanstdPop (l.map (fun v => v - mean l)) =
      Real.sqrt ((((l.map (fun v => v - mean l)).map (fun v => v ^ 2)).sum) /
        ((l.map (fun v => v - mean l)).length : ℝ)) := by
  unfold nanstdPop
  rw [mean_centered]
  simp only [sub_zero]

/-- Any correlation entry the lag scan produces lies in [-1, 1]. -/
theorem lagEntry_bounds (x y : List (Option ℝ)) (lag : ℤ) (mo : ℕ) (v : ℝ)
    (h : lagEntry x y lag mo = some v) : -1 ≤ v ∧ v ≤ 1 := by
  simp only [lagEntry] at h
  set mv := jointPairs (lagSlices x y lag).1 (lagSlices x y lag).2 with hmv
  split_ifs at h with h1 h2
  · set xm := mv.map Prod.fst with hxm
    set ym := mv.map Prod.snd with hym
    set xc := xm.map (fun v => v - mean xm) with hxc
    set yc := ym.map (fun v => v - mean ym) with hyc
    have hv : mean ((xc.zip yc).map (fun p => p.1 * p.2)) /
        (nanstdPop xc * nanstdPop yc) = v := by
      exact Option.some.inj h
    have hlenxc : xc.length = mv.length := by
      rw [hxc, hxm, List.length_map, List.length_map]
    have hlenyc : yc.length = mv.length := by
      rw [hyc, hym, List.length_map, List.length_map]
    have hlenz : (xc.zip yc).length = mv.length := by
      rw [List.length_zip, hlenxc, hlenyc, min_self]
    set Sxy := ((xc.zip yc).map (fun p => p.1 * p.2)).sum with hSxy
    set Sxx := (xc.map (fun w => w ^ 2)).sum with hSxx
    set Syy := (yc.map (fun w => w ^ 2)).sum with hSyy
    have hfst : (xc.zip yc).map Prod.fst = xc :=
      List.map_fst_zip xc yc (by omega)
    have hsnd : (xc.zip yc).map Prod.snd = yc :=
      List.map_snd_zip xc yc (by omega)
    have hcs : Sxy ^ 2 ≤ Sxx * Syy := by
      have hx2 : ((xc.zip yc).map (fun q => q.1 ^ 2)).sum = Sxx := by
        have hmm : (xc.zip yc).map (fun q => q.1 ^ 2) =
            ((xc.zip yc).map Prod.fst).map (fun w => w ^ 2) := by
          rw [List.map_map]
          rfl
        rw [hSxx, hmm, hfst]
      have hy2 : ((xc.zip yc).map (fun q => q.2 ^ 2)).sum = Syy := by
        have hmm : (xc.zip yc).map (fun q => q.2 ^ 2) =
            ((xc.zip yc).map Prod.snd).map (fun w => w ^ 2) := by
          rw [List.map_map]
          rfl
        rw [hSyy, hmm, hsnd]
      rw [hSxy, ← hx2, ← hy2]
      exact list_cauchy_schwarz _
    have hSxxnn : 0 ≤ Sxx := sum_sq_nonneg xc (fun w => w)
    have hSyynn : 0 ≤ Syy := sum_sq_nonneg yc (fun w => w)
    have hstdx : nanstdPop xc = Real.sqrt (Sxx / (mv.length : ℝ)) := by
      rw [hxc, nanstdPop_centered, ← hxc, ← hSxx, hlenxc]
    have hstdy : nanstdPop yc = Real.sqrt (Syy / (mv.length : ℝ)) := by
      rw [hyc, nanstdPop_centered, ← hyc, ← hSyy, hlenyc]
    rcases Nat.eq_zero_or_pos mv.length with hl0 | hlpos
    · exfalso
      rw [hstdx, hl0] at h2
      simp at h2
    · have hlr : (0 : ℝ) < (mv.length : ℝ) := by exact_mod_cast hlpos
      have hB : nanstdPop xc * nanstdPop yc =
          Real.sqrt Sxx * Real.sqrt Syy / (mv.length : ℝ) := by
        rw [hstdx, hstdy, Real.sqrt_div hSxxnn, Real.sqrt_div hSyynn]
        rw [div_mul_div_comm, Real.mul_self_sqrt hlr.le]
      have hBpos : 0 < Real.sqrt Sxx * Real.sqrt Syy := by
        have h2b := h2
        rw [hB] at h2b
        have hBeq : Real.sqrt Sxx * Real.sqrt Syy =
            (Real.sqrt Sxx * Real.sqrt Syy / (mv.length : ℝ)) * (mv.length : ℝ) :=
          (div_mul_cancel₀ _ (ne_of_gt hlr)).symm
        rw [hBeq]
        exact mul_pos h2b hlr
      have hSabs : |Sxy| ≤ Real.sqrt Sxx * Real.sqrt Syy := by
        have h3 : |Sxy| = Real.sqrt (Sxy ^ 2) := (Real.sqrt_sq_eq_abs Sxy).symm
        rw [h3, ← Real.sqrt_mul hSxxnn]
        exact Real.sqrt_le_sqrt hcs
      have hmean : mean ((xc.zip yc).map (fun p => p.1 * p.2)) =
          Sxy / (mv.length : ℝ) := by
        rw [mean, ← hSxy, List.length_map, hlenz]
      have hvval : v = Sxy / (Real.sqrt Sxx * Real.sqrt Syy) := by
        rw [← hv, hmean, hB]
        field_simp
      have habs : |v| ≤ 1 := by
        rw [hvval, abs_div, abs_of_pos hBpos]
        rw [div_le_one hBpos]
        exact hSabs
      exact abs_le.mp habs

/-- The product of the sample standard deviations tested against zero by
the lag scan. -/
noncomputable def lagStdProduct (x y : List (Option ℝ)) (lag : ℤ) : ℝ :=
  let mv := jointPairs (lagSlices x y lag).1 (lagSlices x y lag).2
  let xm := mv.map Prod.fst
  let ym := mv.map Prod.snd
  nanstdPop (xm.map (fun v => v - mean xm)) *
    nanstdPop (ym.map (fun v => v - mean ym))

/-- A lag with too little joint-finite overlap, or a zero product of
standard deviations, yields NaN. -/
theorem lagEntry_nan (x y : List (Option ℝ)) (lag : ℤ) (mo : ℕ)
    (h : (jointPairs (lagSlices x y lag).1 (lagSlices x y lag).2).length < mo ∨
      lagStdProduct x y lag = 0) :
    lagEntry x y lag mo = none := by
  simp only [lagEntry]
  rcases h with hov | hstd
  · rw [if_neg (by omega)]
  · simp only [lagStdProduct] at hstd
    by_cases hov2 : mo ≤ (jointPairs (lagSlices x y lag).1
        (lagSlices x y lag).2).length
    · rw [if_pos hov2, if_neg (by rw [hstd]; exact lt_irrefl 0)]
    · rw [if_neg hov2]

/-- jointPairs of an all-finite series with itself diagonalizes its
values. -/
theorem jointPairs_self_finite {γ : Type} :
    ∀ (l : List (Option γ)), (∀ o ∈ l, o.isSome) →
      jointPairs l l = (l.filterMap id).map (fun v => (v, v))
  | [], _ => rfl
  | o :: t, hfin => by
    obtain ⟨v, rfl⟩ := Option.isSome_iff_exists.mp
      (hfin o (List.mem_cons_self o t))
    have ht := jointPairs_self_finite t
      (fun a ha => hfin a (List.mem_cons_of_mem _ ha))
    simp only [jointPairs, List.zip_cons_cons, List.filterMap_cons] at ht ⊢
    rw [ht]
    rfl

/-- An all-finite series keeps its length under finite filtering. -/
theorem finites_length_eq {γ : Type} :
    ∀ (l : List (Option γ)), (∀ o ∈ l, o.isSome) →
      (l.filterMap id).length = l.length
  | [], _ => rfl
  | o :: t, hfin => by
    obtain ⟨v, rfl⟩ := Option.isSome_iff_exists.mp
      (hfin o (List.mem_cons_self o t))
    have ht := finites_length_eq t
      (fun a ha => hfin a (List.mem_cons_of_mem _ ha))
    simp only [List.filterMap_cons, List.length_cons]
    rw [show (id (some v) : Option γ) = some v from rfl]
    simp [ht]

/-- Pairing a list with itself and multiplying componentwise squares it. -/
theorem zip_self_map_mul :
    ∀ (l : List ℝ), ((l.zip l).map (fun p => p.1 * p.2)).sum =
      (l.map (fun v => v ^ 2)).sum
  | [] => rfl
  | v :: t => by
    simp only [List.zip_cons_cons, List.map_cons, List.sum_cons,
      zip_self_map_mul t]
    ring_nf

/-- Autocorrelation of an all-finite non-constant series of length at
least min_overlap is exactly 1 at lag zero. -/
theorem lagEntry_autocorr (x : List (Option ℝ)) (mo : ℕ)
    (hfin : ∀ o ∈ x, o.isSome) (hnc : ∃ a ∈ x, ∃ b ∈ x, a ≠ b)
    (hmo : mo ≤ x.length) : lagEntry x x 0 mo = some 1 := by
  have hsl : lagSlices x x (0 : ℤ) = (x, x) := by
    simp [lagSlices]
  simp only [lagEntry, hsl]
  rw [jointPairs_self_finite x hfin]
  set vx := x.filterMap id with hvx
  have hvxlen : vx.length = x.length := finites_length_eq x hfin
  have hxm : ((vx.map (fun v => (v, v))).map Prod.fst) = vx := by
    rw [List.map_map]
    exact List.map_id vx
  have hym : ((vx.map (fun v => (v, v))).map Prod.snd) = vx := by
    rw [List.map_map]
    exact List.map_id vx
  rw [if_pos (by rw [List.length_map]; omega)]
  rw [hxm, hym]
  set z := vx.map (fun v => v - mean vx) with hz
  have hzlen : z.length = vx.length := List.length_map _ _
  obtain ⟨a, ha, b, hb, hab⟩ := hnc
  obtain ⟨va, rfl⟩ := Option.isSome_iff_exists.mp (hfin a ha)
  obtain ⟨vb, rfl⟩ := Option.isSome_iff_exists.mp (hfin b hb)
  have hvamem : va ∈ vx := List.mem_filterMap.mpr ⟨some va, ha, rfl⟩
  have hvbmem : vb ∈ vx := List.mem_filterMap.mpr ⟨some vb, hb, rfl⟩
  have hvab : va ≠ vb := fun hh => hab (by rw [hh])
  have hc : ∃ c ∈ vx, c ≠ mean vx := by
    by_cases hva : va = mean vx
    · exact ⟨vb, hvbmem, fun hh => hvab (by rw [hva, hh])⟩
    · exact ⟨va, hvamem, hva⟩
  obtain ⟨c, hcmem, hcne⟩ := hc
  have hlpos : 0 < vx.length := List.length_pos.mpr (List.ne_nil_of_mem hvamem)
  have hlr : (0 : ℝ) < (vx.length : ℝ) := by exact_mod_cast hlpos
  set Szz := (z.map (fun v => v ^ 2)).sum with hSzz
  have hSzzpos : 0 < Szz := by
    have hmemz : (c - mean vx) ∈ z := by
      rw [hz]
      exact List.mem_map_of_mem _ hcmem
    have hmem2 : (c - mean vx) ^ 2 ∈ z.map (fun v => v ^ 2) :=
      List.mem_map_of_mem _ hmemz
    have hnn : ∀ e ∈ z.map (fun v => v ^ 2), 0 ≤ e := by
      intro e he
      rcases List.mem_map.mp he with ⟨w, _, rfl⟩
      exact sq_nonneg w
    refine sum_pos_of_mem_pos hnn hmem2 ?_
    rcases lt_or_eq_of_le (sq_nonneg (c - mean vx)) with hpos | heq
    · exact hpos
    · exfalso
      have hzero : (c - mean vx) ^ 2 = 0 := heq.symm
      have := pow_eq_zero_iff (two_ne_zero) |>.mp hzero
      exact hcne (by linarith [sub_eq_zero.mp this])
  have hstdz : nanstdPop z = Real.sqrt (Szz / ((vx.length : ℕ) : ℝ)) := by
    rw [hz, nanstdPop_centered, ← hz, ← hSzz, hzlen]
  have hratio_pos : 0 < Szz / ((vx.length : ℕ) : ℝ) := div_pos hSzzpos hlr
  have hdenom : nanstdPop z * nanstdPop z = Szz / ((vx.length : ℕ) : ℝ) := by
    rw [hstdz]
    exact Real.mul_self_sqrt hratio_pos.le
  rw [if_pos (by rw [hdenom]; exact hratio_pos)]
  have hmeanval : mean ((z.zip z).map (fun p => p.1 * p.2)) =
      Szz / ((vx.length : ℕ) : ℝ) := by
    rw [mean, zip_self_map_mul z, ← hSzz, List.length_map, List.length_zip,
      min_self, hzlen]
  rw [hmeanval, hdenom, div_self (ne_of_gt hratio_pos)]

end LagCorrelationLemmas

/-- Claim C4: for equal-length series the lag scan returns 2 max_lag + 1
entries indexed by lag offset from -max_lag, every finite entry lies in
[-1, 1], a lag with insufficient joint-finite overlap or a zero product of
standard deviations is NaN, and the autocorrelation of an all-finite
non-constant series of length at least min_overlap is exactly 1 at lag 0. -/
theorem claim_C4 (x y : List (Option ℝ)) (L mo : ℕ)
    (hlen : x.length = y.length) :
    ∃ cs, lag_correlation x y L mo = some cs ∧
      cs.length = 2 * L + 1 ∧
      (∀ c ∈ cs, ∀ v : ℝ, c = some v → -1 ≤ v ∧ v ≤ 1) ∧
      (∀ lag : ℤ,
        ((jointPairs (lagSlices x y lag).1 (lagSlices x y lag).2).length < mo ∨
          lagStdProduct x y lag = 0) → lagEntry x y lag mo = none) ∧
      (∀ k : ℕ, k < 2 * L + 1 →
        cs.getD k none = lagEntry x y ((k : ℤ) - (L : ℤ)) mo) ∧
      (y = x → (∀ o ∈ x, o.isSome) → (∃ a ∈ x, ∃ b ∈ x, a ≠ b) →
        mo ≤ x.length → cs.getD L none = some 1) := by
  refine ⟨(List.range (2 * L + 1)).map
    (fun (k : ℕ) => lagEntry x y ((k : ℤ) - (L : ℤ)) mo), ?_, ?_, ?_, ?_, ?_, ?_⟩
  · unfold lag_correlation
    rw [if_neg (by omega)]
  · rw [List.length_map, List.length_range]
  · intro c hc v hv
    rcases List.mem_map.mp hc with ⟨k, _, hk⟩
    exact lagEntry_bounds x y ((k : ℤ) - (L : ℤ)) mo v (hk.trans hv)
  · intro lag hcond
    exact lagEntry_nan x y lag mo hcond
  · intro k hk
    exact getD_map_range _ _ _ _ (by omega)
  · intro hyx hfin hnc hmo
    have hget : ((List.range (2 * L + 1)).map
        (fun (k : ℕ) => lagEntry x y ((k : ℤ) - (L : ℤ)) mo)).getD L none =
        lagEntry x y ((L : ℤ) - (L : ℤ)) mo :=
      getD_map_range _ _ _ _ (by omega)
    rw [hget, sub_self, hyx]
    exact lagEntry_autocorr x mo hfin hnc hmo

/-- Witness for claim C4: the all-finite ramp 0..11 correlated with itself
at max_lag 2 and min_overlap 10. -/
theorem claim_C4_witness :
    (((List.range 12).map (fun (i : ℕ) => some (i : ℝ))).length =
      ((List.range 12).map (fun (i : ℕ) => some (i : ℝ))).length) ∧
    (∃ cs, lag_correlation ((List.range 12).map (fun (i : ℕ) => some (i : ℝ)))
        ((List.range 12).map (fun (i : ℕ) => some (i : ℝ))) 2 10 = some cs ∧
      cs.length = 2 * 2 + 1 ∧
      (∀ c ∈ cs, ∀ v : ℝ, c = some v → -1 ≤ v ∧ v ≤ 1) ∧
      cs.getD 2 none = some 1) := by
  obtain ⟨cs, hcs, hclen, hb, _, _, hauto⟩ :=
    claim_C4 ((List.range 12).map (fun (i : ℕ) => some (i : ℝ)))
      ((List.range 12).map (fun (i : ℕ) => some (i : ℝ))) 2 10 rfl
  refine ⟨rfl, cs, hcs, hclen, hb, ?_⟩
  apply hauto rfl
  · intro o ho
    rcases List.mem_map.mp ho with ⟨i, _, rfl⟩
    rfl
  · refine ⟨some ((0 : ℕ) : ℝ), ?_, some ((1 : ℕ) : ℝ), ?_, ?_⟩
    · exact List.mem_map_of_mem _ (List.mem_range.mpr (by norm_num))
    · exact List.mem_map_of_mem _ (List.mem_range.mpr (by norm_num))
    · intro hcontra
      have : ((0 : ℕ) : ℝ) = ((1 : ℕ) : ℝ) := Option.some.inj hcontra
      norm_num at this
  · rw [List.length_map, List.length_range]
    norm_num

/-!  perform_lag_correlation_analysis (clock_offset.py lines 324-380).

The analyzer sub-samples every level, correlates it against the
sub-sampled reference level at lags bounded by a fifth of the sub-sampled
length, and takes np.nanargmax of each level's correlations.  nanargmax
raises ValueError (All-NaN slice encountered) when every entry is NaN.
-/

/-- np.diff of a one-dimensional array. -/
def diffsL (l : List α) : List α := List.zipWith (fun b a => b - a) l.tail l

/-- Stride slicing x[::s]. -/
def subsample {γ : Type} (s : ℕ) (l : List γ) : List γ :=
  (List.range l.length).filterMap (fun i => if i % s = 0 then l[i]? else none)

/-- Fold for np.nanargmax: best (index, value) so far, NaNs skipped, ties
kept at the first occurrence. -/
noncomputable def nanargmaxAux :
    List (Option ℝ) → ℕ → Option (ℕ × ℝ) → Option (ℕ × ℝ)
  | [], _, best => best
  | none :: t, i, best => nanargmaxAux t (i + 1) best
  | some v :: t, i, best =>
    match best with
    | none => nanargmaxAux t (i + 1) (some (i, v))
    | some (bi, bv) =>
      if bv < v then nanargmaxAux t (i + 1) (some (i, v))
      else nanargmaxAux t (i + 1) (some (bi, bv))

/-- np.nanargmax: index of the largest non-NaN entry; ValueError on an
all-NaN array. -/
noncomputable def nanargmax (l : List (Option ℝ)) : Except String ℕ :=
  match nanargmaxAux l 0 none with
  | none => Except.error "All-NaN slice encountered"
  | some (bi, _) => Except.ok bi

/-- One level of the correlation loop: correlate the sub-sampled level
against the sub-sampled reference, locate the best lag with nanargmax and
convert it to seconds, adding the level's pre-existing clock offset. -/
noncomputable def lagAnalysisLevel (ref_temp_sub : List (Option ℝ))
    (max_lag_sub : ℕ) (lags_sub : List ℤ) (time_interval : Option ℝ)
    (sub_sample : ℕ) (cols : List (List (Option ℝ)))
    (clock_offsets : List ℝ) (i : ℕ) :
    Except String (ℤ × List (Option ℝ) × Option ℝ × Option ℝ) :=
  let temp_i_sub := subsample sub_sample (cols.getD i [])
  let coff := clock_offsets.getD i 0
  match lag_correlation ref_temp_sub temp_i_sub max_lag_sub 10 with
  | none => Except.error "x and y must have same length (subsample both)."
  | some corrs_sub =>
    match nanargmax corrs_sub with
    | Except.error e => Except.error e
    | Except.ok max_corr_idx =>
      let max_corr := corrs_sub.getD max_corr_idx none
      let max_lag := lags_sub.getD max_corr_idx 0
      let dt_sub := fmul (some ((sub_sample : ℕ) : ℝ)) time_interval
      let clock_offset_total :=
        fadd (fmul (some ((max_lag : ℤ) : ℝ)) dt_sub) (some coff)
      Except.ok (max_lag, corrs_sub, max_corr, clock_offset_total)

/-- Results of the lag correlation analysis. -/
structure LagResults where
  ref_index : ℕ
  sub_sample : ℕ
  time_interval : Option ℝ
  lags : List ℤ
  correlations : List (List (Option ℝ))
  max_correlations : List (Option ℝ)
  clock_offsets : List (Option ℝ)

/-- Lag correlation analysis across all levels against a reference level;
errors model the IndexError for a bad reference index, the ValueError for
mismatched lengths, and the ValueError nanargmax raises on an all-NaN
correlation array. -/
noncomputable def perform_lag_correlation_analysis (time : List ℝ)
    (cols : List (List (Option ℝ))) (clock_offsets : List ℝ)
    (ref_index : ℕ) (sub_sample : ℕ) : Except String LagResults :=
  let time_interval := nanmedian ((diffsL time).map some)
  match cols[ref_index]? with
  | none => Except.error "IndexError: index out of bounds"
  | some ref_col =>
    let ref_temp_sub := subsample sub_sample ref_col
    let max_lag_sub := ref_temp_sub.length / 5
    let lags_sub := (List.range (2 * max_lag_sub + 1)).map
      (fun (k : ℕ) => (k : ℤ) - (max_lag_sub : ℤ))
    match (List.range cols.length).mapM
        (lagAnalysisLevel ref_temp_sub max_lag_sub lags_sub time_interval
          sub_sample cols clock_offsets) with
    | Except.error e => Except.error e
    | Except.ok res =>
      Except.ok
        { ref_index := ref_index
          sub_sample := sub_sample
          time_interval := time_interval
          lags := res.map (fun r => r.1)
          correlations := res.map (fun r => r.2.1)
          max_correlations := res.map (fun r => r.2.2.1)
          clock_offsets := res.map (fun r => r.2.2.2) }

/-- The correlation array the analyzer computes for level i. -/
noncomputable def levelCorrelations (cols : List (List (Option ℝ)))
    (ref_index sub_sample : ℕ) (i : ℕ) : Option (List (Option ℝ)) :=
  let ref_temp_sub := subsample sub_sample (cols.getD ref_index [])
  lag_correlation ref_temp_sub (subsample sub_sample (cols.getD i []))
    (ref_temp_sub.length / 5) 10

/-- The nanargmax fold returns none exactly when it started with no best
and every entry is NaN. -/
theorem nanargmaxAux_none_iff :
    ∀ (l : List (Option ℝ)) (i : ℕ) (best : Option (ℕ × ℝ)),
      nanargmaxAux l i best = none ↔ best = none ∧ ∀ o ∈ l, o = none
  | [], i, best => by simp [nanargmaxAux]
  | none :: t, i, best => by
    rw [nanargmaxAux, nanargmaxAux_none_iff t]
    simp
  | some v :: t, i, best => by
    rcases best with _ | ⟨bi, bv⟩
    · rw [nanargmaxAux, nanargmaxAux_none_iff t]
      simp
    · rw [nanargmaxAux]
      constructor
      · intro h
        split_ifs at h <;> rw [nanargmaxAux_none_iff t] at h <;> cases h.1
      · rintro ⟨h1, _⟩
        cases h1

/-- nanargmax raises its ValueError exactly on an all-NaN array. -/
theorem nanargmax_error_iff (l : List (Option ℝ)) :
    nanargmax l = Except.error "All-NaN slice encountered" ↔
      ∀ o ∈ l, o = none := by
  unfold nanargmax
  rcases h : nanargmaxAux l 0 none with _ | ⟨bi, bv⟩
  · constructor
    · intro _
      exact ((nanargmaxAux_none_iff l 0 none).mp h).2
    · intro _
      rfl
  · constructor
    · intro hcontra
      cases hcontra
    · intro hall
      have := (nanargmaxAux_none_iff l 0 none).mpr ⟨rfl, hall⟩
      rw [h] at this
      cases this

/-- nanargmax either raises its ValueError or succeeds. -/
theorem nanargmax_cases (l : List (Option ℝ)) :
    nanargmax l = Except.error "All-NaN slice encountered" ∨
      ∃ k, nanargmax l = Except.ok k := by
  unfold nanargmax
  rcases h : nanargmaxAux l 0 none with _ | ⟨bi, bv⟩
  · exact Or.inl rfl
  · exact Or.inr ⟨bi, rfl⟩

/-- An Except-valued mapM succeeds exactly when every element does. -/
theorem mapM_ok_iff {γ δ : Type} (f : γ → Except String δ) :
    ∀ l : List γ,
      (∃ res, l.mapM f = Except.ok res) ↔ ∀ a ∈ l, ∃ b, f a = Except.ok b := by
  intro l
  induction l with
  | nil =>
    constructor
    · intro _ a ha
      cases ha
    · intro _
      exact ⟨[], rfl⟩
  | cons x xs ih =>
    rw [List.mapM_cons]
    constructor
    · rintro ⟨res, hres⟩
      rcases hx : f x with e | b
      · rw [hx] at hres
        cases hres
      · rw [hx] at hres
        rcases hxs : xs.mapM f with e2 | bs
        · rw [hxs] at hres
          cases hres
        · intro a ha
          rcases List.mem_cons.mp ha with rfl | ha2
          · exact ⟨b, hx⟩
          · exact ih.mp ⟨bs, hxs⟩ a ha2
    · intro hall
      obtain ⟨b, hb⟩ := hall x (List.mem_cons_self _ _)
      obtain ⟨bs, hbs⟩ := ih.mpr (fun a ha => hall a (List.mem_cons_of_mem _ ha))
      refine ⟨b :: bs, ?_⟩
      rw [hb, hbs]
      rfl

/-- When every element either succeeds or fails with one fixed message,
mapM fails with that message exactly when some element does. -/
theorem mapM_error_iff {γ δ : Type} (f : γ → Except String δ) (msg : String) :
    ∀ l : List γ,
      (∀ a ∈ l, (∃ b, f a = Except.ok b) ∨ f a = Except.error msg) →
      (l.mapM f = Except.error msg ↔ ∃ a ∈ l, f a = Except.error msg) := by
  intro l
  induction l with
  | nil =>
    intro _
    constructor
    · intro h
      cases h
    · rintro ⟨a, ha, _⟩
      cases ha
  | cons x xs ih =>
    intro hall
    rw [List.mapM_cons]
    rcases hx : f x with e | b
    · have he : e = msg := by
        rcases hall x (List.mem_cons_self _ _) with ⟨b, hb⟩ | herr
        · rw [hx] at hb
          cases hb
        · rw [hx] at herr
          exact (Except.error.inj herr)
      subst he
      constructor
      · intro _
        exact ⟨x, List.mem_cons_self _ _, hx⟩
      · intro _
        rfl
    · rcases hxs : xs.mapM f with e2 | bs
      · have he2 : e2 = msg := by
        -- xs.mapM errors only with msg: from ih applied
          have hih := ih (fun a ha => hall a (List.mem_cons_of_mem _ ha))
          by_contra hne
          -- if e2 ≠ msg then mapM xs ≠ error msg, and also not ok
          have hnok : ¬ ∃ res, xs.mapM f = Except.ok res := by
            rintro ⟨res, hres⟩
            rw [hxs] at hres
            cases hres
          have hnall : ¬ ∀ a ∈ xs, ∃ b, f a = Except.ok b :=
            fun h => hnok ((mapM_ok_iff f xs).mpr h)
          push_neg at hnall
          obtain ⟨a, ha, hano⟩ := hnall
          rcases hall a (List.mem_cons_of_mem _ ha) with hok | herr
          · rcases hok with ⟨b2, hb2⟩
            exact hano b2 hb2
          · have := hih.mpr ⟨a, ha, herr⟩
            rw [hxs] at this
            exact hne (Except.error.inj this)
        subst he2
        constructor
        · intro _
          have hih := ih (fun a ha => hall a (List.mem_cons_of_mem _ ha))
          obtain ⟨a, ha, herr⟩ := hih.mp hxs
          exact ⟨a, List.mem_cons_of_mem _ ha, herr⟩
        · intro _
          rfl
      · constructor
        · intro hcontra
          have h2 : (Except.ok (b :: bs) : Except String (List δ)) =
              Except.error msg := hcontra
          cases h2
        · rintro ⟨a, ha, herr⟩
          rcases List.mem_cons.mp ha with rfl | ha2
          · rw [hx] at herr
            cases herr
          · have hih := ih (fun a ha => hall a (List.mem_cons_of_mem _ ha))
            have := hih.mpr ⟨a, ha2, herr⟩
            rw [hxs] at this
            cases this

/-- The length of a stride slice depends only on the source length. -/
theorem length_filterMap_stride {γ : Type} (l : List γ) (s : ℕ) :
    ∀ L : List ℕ, (∀ i ∈ L, i < l.length) →
      (L.filterMap (fun i => if i % s = 0 then l[i]? else none)).length =
      (L.filter (fun i => decide (i % s = 0))).length := by
  intro L
  induction L with
  | nil => simp
  | cons a t ih =>
    intro hb
    rw [List.filterMap_cons, List.filter_cons]
    by_cases ha : a % s = 0
    · rw [if_pos ha, List.getElem?_eq_getElem (hb a (List.mem_cons_self _ _))]
      rw [if_pos (by simpa using ha)]
      simp only [List.length_cons]
      rw [ih (fun i hi => hb i (List.mem_cons_of_mem _ hi))]
    · rw [if_neg ha, if_neg (by simpa using ha)]
      exact ih (fun i hi => hb i (List.mem_cons_of_mem _ hi))

/-- Stride-slice length as a function of the source length. -/
theorem subsample_length {γ : Type} (l : List γ) (s : ℕ) :
    (subsample s l).length =
      ((List.range l.length).filter (fun i => decide (i % s = 0))).length := by
  unfold subsample
  exact length_filterMap_stride l s (List.range l.length)
    (fun i hi => List.mem_range.mp hi)

/-- Claim C7 (amended): per-lag soft failures are recorded as NaN entries
without aborting, and the analyzer completes exactly when every level's
correlation array has at least one non-NaN entry; but a level whose
correlations are all NaN makes np.nanargmax raise ValueError, aborting the
analysis, and that is the only way the loop fails once the reference index
is valid and the levels share the common grid length. -/
theorem claim_C7 (time : List ℝ) (cols : List (List (Option ℝ)))
    (clock_offsets : List ℝ) (ref_index sub_sample : ℕ)
    (href : ref_index < cols.length)
    (hcols : ∀ c ∈ cols, c.length = (cols.getD ref_index []).length) :
    ((∃ r, perform_lag_correlation_analysis time cols clock_offsets ref_index
        sub_sample = Except.ok r) ↔
      ∀ i < cols.length, ∃ cs,
        levelCorrelations cols ref_index sub_sample i = some cs ∧
        ∃ o ∈ cs, o ≠ none) ∧
    (perform_lag_correlation_analysis time cols clock_offsets ref_index
        sub_sample = Except.error "All-NaN slice encountered" ↔
      ∃ i, i < cols.length ∧ ∃ cs,
        levelCorrelations cols ref_index sub_sample i = some cs ∧
        ∀ o ∈ cs, o = none) := by
  have hrefcol : cols[ref_index]? = some (cols.getD ref_index []) := by
    rw [List.getD_eq_getElem?_getD, List.getElem?_eq_getElem href]
    rfl
  set refsub := subsample sub_sample (cols.getD ref_index []) with hrefsub
  set L := refsub.length / 5 with hL
  set lags := (List.range (2 * L + 1)).map
    (fun (k : ℕ) => (k : ℤ) - (L : ℤ)) with hlags
  set ti := nanmedian ((diffsL time).map some) with hti
  set f := lagAnalysisLevel refsub L lags ti sub_sample cols clock_offsets
    with hf
  have hcorr : ∀ i, i < cols.length →
      lag_correlation refsub (subsample sub_sample (cols.getD i [])) L 10 =
      some ((List.range (2 * L + 1)).map (fun (k : ℕ) =>
        lagEntry refsub (subsample sub_sample (cols.getD i []))
          ((k : ℤ) - (L : ℤ)) 10)) := by
    intro i hi
    have hcl : (cols.getD i []).length = (cols.getD ref_index []).length :=
      hcols _ (getD_mem _ hi)
    have hsl : refsub.length =
        (subsample sub_sample (cols.getD i [])).length := by
      rw [hrefsub, subsample_length, subsample_length, hcl]
    unfold lag_correlation
    rw [if_neg (not_ne_iff.mpr hsl)]
  have hlevelcorr : ∀ i, i < cols.length →
      levelCorrelations cols ref_index sub_sample i =
      some ((List.range (2 * L + 1)).map (fun (k : ℕ) =>
        lagEntry refsub (subsample sub_sample (cols.getD i []))
          ((k : ℤ) - (L : ℤ)) 10)) := by
    intro i hi
    exact hcorr i hi
  have hfi : ∀ i, i < cols.length →
      f i = (match nanargmax ((List.range (2 * L + 1)).map (fun (k : ℕ) =>
          lagEntry refsub (subsample sub_sample (cols.getD i []))
            ((k : ℤ) - (L : ℤ)) 10)) with
        | Except.error e => Except.error e
        | Except.ok max_corr_idx =>
          Except.ok (lags.getD max_corr_idx 0,
            (List.range (2 * L + 1)).map (fun (k : ℕ) =>
              lagEntry refsub (subsample sub_sample (cols.getD i []))
                ((k : ℤ) - (L : ℤ)) 10),
            ((List.range (2 * L + 1)).map (fun (k : ℕ) =>
              lagEntry refsub (subsample sub_sample (cols.getD i []))
                ((k : ℤ) - (L : ℤ)) 10)).getD max_corr_idx none,
            fadd (fmul (some ((lags.getD max_corr_idx 0 : ℤ) : ℝ))
              (fmul (some ((sub_sample : ℕ) : ℝ)) ti)) (some
                (clock_offsets.getD i 0)))) := by
    intro i hi
    rw [hf]
    simp only [lagAnalysisLevel]
    rw [hcorr i hi]
  have hlevelchar : ∀ i, i < cols.length →
      (((∃ b, f i = Except.ok b) ↔
        ∃ o ∈ (List.range (2 * L + 1)).map (fun (k : ℕ) =>
          lagEntry refsub (subsample sub_sample (cols.getD i []))
            ((k : ℤ) - (L : ℤ)) 10), o ≠ none) ∧
      ((f i = Except.error "All-NaN slice encountered") ↔
        ∀ o ∈ (List.range (2 * L + 1)).map (fun (k : ℕ) =>
          lagEntry refsub (subsample sub_sample (cols.getD i []))
            ((k : ℤ) - (L : ℤ)) 10), o = none) ∧
      ((∃ b, f i = Except.ok b) ∨
        f i = Except.error "All-NaN slice encountered")) := by
    intro i hi
    rcases nanargmax_cases ((List.range (2 * L + 1)).map (fun (k : ℕ) =>
        lagEntry refsub (subsample sub_sample (cols.getD i []))
          ((k : ℤ) - (L : ℤ)) 10)) with herr | ⟨k, hk⟩
    · have hallnan := (nanargmax_error_iff _).mp herr
      have hfe : f i = Except.error "All-NaN slice encountered" := by
        rw [hfi i hi, herr]
      refine ⟨?_, ?_, Or.inr hfe⟩
      · constructor
        · rintro ⟨b, hb⟩
          rw [hfe] at hb
          cases hb
        · rintro ⟨o, ho, hone⟩
          exact absurd (hallnan o ho) hone
      · exact ⟨fun _ => hallnan, fun _ => hfe⟩
    · have hnotall : ¬ ∀ o ∈ (List.range (2 * L + 1)).map (fun (k : ℕ) =>
          lagEntry refsub (subsample sub_sample (cols.getD i []))
            ((k : ℤ) - (L : ℤ)) 10), o = none := by
        intro hall
        have := (nanargmax_error_iff _).mpr hall
        rw [hk] at this
        cases this
      have hfo : ∃ b, f i = Except.ok b := by
        rw [hfi i hi, hk]
        exact ⟨_, rfl⟩
      refine ⟨?_, ?_, Or.inl hfo⟩
      · constructor
        · intro _
          push_neg at hnotall
          obtain ⟨o, ho, hone⟩ := hnotall
          exact ⟨o, ho, hone⟩
        · intro _
          exact hfo
      · constructor
        · intro hcontra
          obtain ⟨b, hb⟩ := hfo
          rw [hb] at hcontra
          cases hcontra
        · intro hall
          exact absurd hall hnotall
  have hperfeq : perform_lag_correlation_analysis time cols clock_offsets
      ref_index sub_sample =
      (match (List.range cols.length).mapM f with
       | Except.error e => Except.error e
       | Except.ok res => Except.ok
          { ref_index := ref_index
            sub_sample := sub_sample
            time_interval := ti
            lags := res.map (fun r => r.1)
            correlations := res.map (fun r => r.2.1)
            max_correlations := res.map (fun r => r.2.2.1)
            clock_offsets := res.map (fun r => r.2.2.2) }) := by
    simp only [perform_lag_correlation_analysis]
    rw [hrefcol]
  have hdisj : ∀ i ∈ List.range cols.length,
      (∃ b, f i = Except.ok b) ∨
        f i = Except.error "All-NaN slice encountered" := by
    intro i hi
    exact (hlevelchar i (List.mem_range.mp hi)).2.2
  have hmapMerr := mapM_error_iff f "All-NaN slice encountered"
    (List.range cols.length) hdisj
  constructor
  · constructor
    · rintro ⟨r, hr⟩
      rw [hperfeq] at hr
      rcases hm : (List.range cols.length).mapM f with e | res
      · rw [hm] at hr
        have hr2 : (Except.error e : Except String LagResults) =
            Except.ok r := hr
        cases hr2
      · have hall := (mapM_ok_iff f _).mp ⟨res, hm⟩
        intro i hi
        refine ⟨_, hlevelcorr i hi, ?_⟩
        exact (hlevelchar i hi).1.mp (hall i (List.mem_range.mpr hi))
    · intro hall
      have hmok : ∃ res, (List.range cols.length).mapM f = Except.ok res := by
        apply (mapM_ok_iff f _).mpr
        intro i hi
        have hi2 := List.mem_range.mp hi
        obtain ⟨cs, hcs, hex⟩ := hall i hi2
        have hcseq : cs = (List.range (2 * L + 1)).map (fun (k : ℕ) =>
            lagEntry refsub (subsample sub_sample (cols.getD i []))
              ((k : ℤ) - (L : ℤ)) 10) := by
          have := (hlevelcorr i hi2).symm.trans hcs
          exact (Option.some.inj this).symm
        rw [hcseq] at hex
        exact (hlevelchar i hi2).1.mpr hex
      obtain ⟨res, hm⟩ := hmok
      rw [hperfeq, hm]
      exact ⟨_, rfl⟩
  · constructor
    · intro herr
      rw [hperfeq] at herr
      rcases hm : (List.range cols.length).mapM f with e | res
      · rw [hm] at herr
        have he : e = "All-NaN slice encountered" := by
          have h2 : (Except.error e : Except String LagResults) =
              Except.error "All-NaN slice encountered" := herr
          exact Except.error.inj h2
        subst he
        obtain ⟨i, hmem, hfe⟩ := hmapMerr.mp hm
        have hi := List.mem_range.mp hmem
        refine ⟨i, hi, _, hlevelcorr i hi, ?_⟩
        exact (hlevelchar i hi).2.1.mp hfe
      · rw [hm] at herr
        exfalso
        simp at herr
    · rintro ⟨i, hi, cs, hcs, hallnan⟩
      have hcseq : cs = (List.range (2 * L + 1)).map (fun (k : ℕ) =>
          lagEntry refsub (subsample sub_sample (cols.getD i []))
            ((k : ℤ) - (L : ℤ)) 10) := by
        have := (hlevelcorr i hi).symm.trans hcs
        exact (Option.some.inj this).symm
      rw [hcseq] at hallnan
      have hfe := (hlevelchar i hi).2.1.mpr hallnan
      have hm := hmapMerr.mpr ⟨i, List.mem_range.mpr hi, hfe⟩
      rw [hperfeq, hm]

set_option maxRecDepth 4000 in
/-- Counterexample to claim C7 as stated: two levels whose measurements
are entirely NaN give every lag a NaN correlation for the very first
level, and np.nanargmax then raises ValueError, aborting the per-level
loop instead of recording sentinel results and continuing. -/
theorem claim_C7_counterexample : perform_lag_correlation_analysis []
    [List.replicate 60 (none : Option ℝ), List.replicate 60 (none : Option ℝ)]
    [0, 0] 0 5 = Except.error "All-NaN slice encountered" := by rfl

/-- Witness for claim C7 at the two-level all-NaN dataset. -/
theorem claim_C7_witness :
    0 < [List.replicate 60 (none : Option ℝ),
      List.replicate 60 (none : Option ℝ)].length ∧
    (∀ c ∈ [List.replicate 60 (none : Option ℝ),
        List.replicate 60 (none : Option ℝ)],
      c.length = ([List.replicate 60 (none : Option ℝ),
        List.replicate 60 (none : Option ℝ)].getD 0 []).length) ∧
    ((perform_lag_correlation_analysis []
        [List.replicate 60 (none : Option ℝ),
          List.replicate 60 (none : Option ℝ)] [0, 0] 0 5 =
      Except.error "All-NaN slice encountered") ↔
      ∃ i, i < [List.replicate 60 (none : Option ℝ),
          List.replicate 60 (none : Option ℝ)].length ∧ ∃ cs,
        levelCorrelations [List.replicate 60 (none : Option ℝ),
          List.replicate 60 (none : Option ℝ)] 0 5 i = some cs ∧
        ∀ o ∈ cs, o = none) :=
  ⟨by norm_num, by intro c hc; fin_cases hc <;> simp,
   (claim_C7 [] [List.replicate 60 (none : Option ℝ),
      List.replicate 60 (none : Option ℝ)] [0, 0] 0 5 (by norm_num)
      (by intro c hc; fin_cases hc <;> simp)).2⟩

/-!  determine_sea_values (find_deployment.py lines 214-239) and
find_deployment (find_deployment.py lines 385-495).

find_deployment validates the variable, reads the shared time axis (an
empty axis would raise IndexError at the first read of time[0]), and per
level overwrites deployment_time and recovery_time with the first and
last timestamps before selecting the bottom window; the threshold step is
invoked with the hard-coded arguments band_sigma=1.5,
min_band_halfwidth=0.10, warm_side=auto, hours=24.0, smooth_window=9,
warm_percentile=90.  The parameters surface_window_hours, smooth_window,
method, band_sigma and dwell_seconds of find_deployment are accepted but
never read.
-/

/-- np.nanstd with ddof = 1 (NaN for fewer than two finite samples). -/
noncomputable def nanstdDdof1 (l : List (Option ℝ)) : Option ℝ :=
  let v := finites l
  if 2 ≤ v.length then
    some (Real.sqrt (((v.map (fun x => (x - mean v) ^ 2)).sum) /
      ((v.length : ℝ) - 1)))
  else none

/-- Sea mean and std over the bottom window, with the interquartile-range
proxy fallback when the window selects no samples. -/
noncomputable def determine_sea_values (time : List ℝ)
    (temp : List (Option ℝ)) (bot_start bot_end : ℝ) :
    Option ℝ × Option ℝ :=
  let m : List Bool := time.map (fun t =>
    decide (bot_start ≤ t) && decide (t ≤ bot_end))
  if m.any id then
    let sel := maskSelect temp m
    (nanmean sel,
     if 1 < (finites sel).length then nanstdDdof1 sel else some 0)
  else
    let q25 := nanpercentile temp 25
    let q75 := nanpercentile temp 75
    let m2 : List Bool := temp.map (fun v => fge v q25 && fle v q75)
    let sel2 := maskSelect temp m2
    ((if m2.any id then nanmean sel2 else nanmean temp),
     (if 1 < (finites sel2).length then nanstdDdof1 sel2
      else nanstdDdof1 temp))

/-- A multi-instrument dataset: the shared time axis, the level count and
the named (time, N_LEVELS) variables stored as per-level columns. -/
structure MooringDataset where
  time : List ℝ
  nlev : ℕ
  vars : List (String × List (List (Option ℝ)))

/-- The per-level annotations written by find_deployment. -/
structure FindDeploymentResult where
  start_time : List (Option ℝ)
  end_time : List (Option ℝ)
  split_value : List (Option ℝ)

/-- Per-level deployment detection: bottom window, sea statistics,
sigma-band threshold with hard-coded arguments, and the unsmoothed
boundary search.  The errors model the ValueError for a missing variable
and the IndexError on an empty time axis; the threshold step cannot fail
once the axis is known non-empty. -/
noncomputable def find_deployment (ds : MooringDataset) (var_name : String)
    (bottom_strategy : String)
    (bottom_margin_hours bottom_inner_fraction : ℝ)
    (deployment_time recovery_time : Option ℝ)
    (deployment_margin_hours : ℝ) (surface_window_hours : ℝ)
    (smooth_window : ℕ) (method : String) (band_sigma : ℝ)
    (dwell_seconds : ℝ) : Except String FindDeploymentResult :=
  match ds.vars.lookup var_name with
  | none => Except.error "ValueError: var_name not found in dataset."
  | some cols =>
    if ds.time.isEmpty then Except.error "IndexError: time axis is empty"
    else
      let levels := (List.range ds.nlev).map (fun i =>
        let data1 := cols.getD i []
        let dep := ds.time.headD 0
        let recov := ds.time.getLastD 0
        let bw := likely_at_bottom_window ds.time bottom_strategy
          bottom_margin_hours bottom_inner_fraction (some dep) (some recov)
          deployment_margin_hours
        let sea := determine_sea_values ds.time data1 bw.1 bw.2
        match compute_threshold_sigma_band ds.time data1 sea.1 sea.2
            (3 / 2) (1 / 10) "auto" 24 9 90 with
        | none => ((none : Option ℝ), (none : Option ℝ), (none : Option ℝ))
        | some (thr, _) =>
          let se := find_entry_exit_from_threshold ds.time data1 thr
          (se.1, se.2, thr))
      Except.ok
        { start_time := levels.map (fun r => r.1)
          end_time := levels.map (fun r => r.2.1)
          split_value := levels.map (fun r => r.2.2) }

/-- Claim C10: two runs of find_deployment that differ only in
deployment_time, recovery_time, surface_window_hours, smooth_window,
method, band_sigma, or dwell_seconds produce identical outputs: the
per-level loop overwrites the deployment and recovery times with the ends
of the shared time axis, and the threshold computation receives hard-coded
constants, so none of these parameters is ever read. -/
theorem claim_C10 (ds : MooringDataset) (var_name : String)
    (bottom_strategy : String)
    (bottom_margin_hours bottom_inner_fraction : ℝ)
    (dep1 rec1 dep2 rec2 : Option ℝ) (deployment_margin_hours : ℝ)
    (swh1 swh2 : ℝ) (sw1 sw2 : ℕ) (m1 m2 : String) (bs1 bs2 : ℝ)
    (dw1 dw2 : ℝ) :
    find_deployment ds var_name bottom_strategy bottom_margin_hours
      bottom_inner_fraction dep1 rec1 deployment_margin_hours swh1 sw1 m1
      bs1 dw1 =
    find_deployment ds var_name bottom_strategy bottom_margin_hours
      bottom_inner_fraction dep2 rec2 deployment_margin_hours swh2 sw2 m2
      bs2 dw2 := rfl

end Oceanarray
